import Mathlib

/-!
# Verification of the brandability-firebase extraction & reconciliation core

Shallow embedding of the multi-pass structured-extraction and
result-reconciliation engine of the repository (functions/case_in.py,
functions/case_in/extract_predictive_data.py, functions/case_in/chunk_pdf.py,
functions/case_prediction/mark_visual_similarity.py,
functions/case_prediction/mark_aural_similarity.py), together with proofs of
the specified properties.
-/

namespace Brandability

/-- A JSON-shaped Python value as produced by `json.loads` and consumed by the
reconciliation code: `None`, booleans, integers, strings, lists and
(insertion-ordered) string-keyed dicts. -/
inductive PyVal where
  | none : PyVal
  | bool (b : Bool) : PyVal
  | int (n : Int) : PyVal
  | str (s : String) : PyVal
  | list (xs : List PyVal) : PyVal
  | dict (d : List (String × PyVal)) : PyVal

mutual

/-- Structural equality of Python values (`==` on JSON-shaped data). -/
def PyVal.beq : PyVal → PyVal → Bool
  | .none, .none => true
  | .bool a, .bool b => a == b
  | .int a, .int b => a == b
  | .str a, .str b => a == b
  | .list xs, .list ys => PyVal.beqList xs ys
  | .dict d, .dict e => PyVal.beqDict d e
  | _, _ => false

/-- Itemwise structural equality of Python lists. -/
def PyVal.beqList : List PyVal → List PyVal → Bool
  | [], [] => true
  | x :: xs, y :: ys => PyVal.beq x y && PyVal.beqList xs ys
  | _, _ => false

/-- Entrywise structural equality of Python dict entry lists. -/
def PyVal.beqDict : List (String × PyVal) → List (String × PyVal) → Bool
  | [], [] => true
  | (k, v) :: xs, (k', v') :: ys => k == k' && PyVal.beq v v' && PyVal.beqDict xs ys
  | _, _ => false

end

instance : BEq PyVal := ⟨PyVal.beq⟩

theorem PyVal.beq_sound_all :
    (∀ a b : PyVal, PyVal.beq a b = true → a = b)
    ∧ (∀ ds es : List (String × PyVal), PyVal.beqDict ds es = true → ds = es)
    ∧ (∀ xs ys : List PyVal, PyVal.beqList xs ys = true → xs = ys) := by
  apply PyVal.beq.mutual_induct <;>
    (intros; try simp_all [PyVal.beq, PyVal.beqList, PyVal.beqDict])

theorem PyVal.beq_refl_all :
    (∀ a b : PyVal, a = b → PyVal.beq a b = true)
    ∧ (∀ ds es : List (String × PyVal), ds = es → PyVal.beqDict ds es = true)
    ∧ (∀ xs ys : List PyVal, xs = ys → PyVal.beqList xs ys = true) := by
  apply PyVal.beq.mutual_induct <;>
    (intros; try simp_all [PyVal.beq, PyVal.beqList, PyVal.beqDict])
  case case7 t x h1 h2 h3 h4 h5 h6 heq => subst heq; cases t <;> simp_all
  case case10 t x h1 h2 heq => subst heq; cases t <;> simp_all
  case case13 t x h1 h2 heq =>
    subst heq
    cases t with
    | nil => simp_all
    | cons p tl =>
      obtain ⟨k, v⟩ := p
      exact absurd rfl (h2 k v tl k v tl rfl rfl rfl)

theorem PyVal.beq_iff_eq (a b : PyVal) : PyVal.beq a b = true ↔ a = b :=
  ⟨PyVal.beq_sound_all.1 a b, PyVal.beq_refl_all.1 a b⟩

instance : DecidableEq PyVal := fun a b =>
  decidable_of_iff (PyVal.beq a b = true) (PyVal.beq_iff_eq a b)

instance : LawfulBEq PyVal where
  eq_of_beq h := PyVal.beq_sound_all.1 _ _ h
  rfl := PyVal.beq_refl_all.1 _ _ rfl

/-- Python truthiness of a value (`bool(v)`): `None`, `False`, `0`, `""`,
`[]` and `{}` are falsy, everything else truthy. -/
def PyVal.truthy : PyVal → Bool
  | .none => false
  | .bool b => b
  | .int n => n != 0
  | .str s => s != ""
  | .list xs => !xs.isEmpty
  | .dict d => !d.isEmpty

/-- An insertion-ordered Python dict with string keys. -/
abbrev PyDict := List (String × PyVal)

/-- `d.get(k)` / `k in d`: the value at the first entry whose key is `k`. -/
def dget (d : PyDict) (k : String) : Option PyVal :=
  match d with
  | [] => Option.none
  | (k', v) :: rest => if k' = k then some v else dget rest k

/-- `d[k] = v` in Python: replace the value at `k` in place if the key is
present (keeping its position), otherwise append the new entry at the end. -/
def dset (d : PyDict) (k : String) (v : PyVal) : PyDict :=
  match d with
  | [] => [(k, v)]
  | (k', v') :: rest => if k' = k then (k', v) :: rest else (k', v') :: dset rest k v

/-- Truthiness of `d.get(k)` (Python's `destination.get(key)`: absent keys
give `None`, which is falsy). -/
def truthyOpt : Option PyVal → Bool
  | Option.none => false
  | some v => v.truthy

theorem dget_dset_self (d : PyDict) (k : String) (v : PyVal) :
    dget (dset d k v) k = some v := by
  induction d with
  | nil => simp [dget, dset]
  | cons hd tl ih =>
    obtain ⟨k', v'⟩ := hd
    by_cases h : k' = k <;> simp [dget, dset, h, ih]

theorem dget_dset_ne (d : PyDict) (k k' : String) (v : PyVal) (h : k ≠ k') :
    dget (dset d k v) k' = dget d k' := by
  induction d with
  | nil => simp [dget, dset, h]
  | cons hd tl ih =>
    obtain ⟨k₀, v₀⟩ := hd
    by_cases h₀ : k₀ = k
    · subst h₀
      simp [dget, dset, h]
    · simp only [dset, if_neg h₀]
      by_cases h₁ : k₀ = k' <;> simp [dget, h₁, ih]

/-! ## deep_merge (functions/case_in.py, lines 254-277)

`deep_merge(source, destination)` folds each `(key, value)` of `source` into
`destination`: nested dicts merge recursively, lists union by value equality
appending only new items, and a scalar overwrites only when it is non-`None`
and either truthy or the destination entry is currently falsy/absent. -/

/-- The list branch of `deep_merge`: Python appends each `item` of the source
list to the destination list unless an equal item is already present
(`any(d == item ...)` for dict items, `item not in destination[key]`
otherwise; both are structural-equality membership on JSON values). -/
def mergeListItems (items dst : List PyVal) : List PyVal :=
  items.foldl (fun acc item => if acc.contains item then acc else acc ++ [item]) dst

mutual

/-- `deep_merge(source, destination)` from functions/case_in.py. -/
def deep_merge : PyDict → PyDict → PyDict
  | [], dst => dst
  | (k, v) :: rest, dst => deep_merge rest (mergeKey k v dst)

/-- One iteration of the `deep_merge` loop body: fold source entry `(k, v)`
into the destination dict. -/
def mergeKey (k : String) (v : PyVal) (dst : PyDict) : PyDict :=
  match v, dget dst k with
  | .dict sd, some (.dict dd) => dset dst k (.dict (deep_merge sd dd))
  | .list sl, some (.list dl) => dset dst k (.list (mergeListItems sl dl))
  | .none, _ => dst
  | v, dv => if v.truthy || !truthyOpt dv then dset dst k v else dst

end

theorem dset_ne_nil (d : PyDict) (k : String) (v : PyVal) : dset d k v ≠ [] := by
  cases d with
  | nil => simp [dset]
  | cons hd tl =>
    obtain ⟨k', v'⟩ := hd
    by_cases h : k' = k <;> simp [dset, h]

theorem mergeKey_ne_nil (k : String) (v : PyVal) (dst : PyDict) (h : dst ≠ []) :
    mergeKey k v dst ≠ [] := by
  rw [mergeKey.eq_def]
  split
  all_goals first
    | exact h
    | exact dset_ne_nil _ _ _
    | (split
       · exact dset_ne_nil _ _ _
       · exact h)

theorem deep_merge_ne_nil (src dst : PyDict) (h : dst ≠ []) : deep_merge src dst ≠ [] := by
  induction src generalizing dst with
  | nil => rw [deep_merge]; exact h
  | cons hd rest ih =>
    obtain ⟨k, v⟩ := hd
    rw [deep_merge]
    exact ih _ (mergeKey_ne_nil k v dst h)

theorem mergeListItems_append (items dst : List PyVal) :
    ∃ extra, mergeListItems items dst = dst ++ extra := by
  induction items generalizing dst with
  | nil => exact ⟨[], by simp [mergeListItems]⟩
  | cons x xs ih =>
    simp only [mergeListItems, List.foldl_cons]
    by_cases h : x ∈ dst
    · obtain ⟨t, ht⟩ := ih dst
      exact ⟨t, by simpa [mergeListItems, h] using ht⟩
    · obtain ⟨t, ht⟩ := ih (dst ++ [x])
      refine ⟨[x] ++ t, ?_⟩
      simpa [mergeListItems, h, List.append_assoc] using ht

theorem mergeListItems_ne_nil (items dst : List PyVal) (h : dst ≠ []) :
    mergeListItems items dst ≠ [] := by
  obtain ⟨t, ht⟩ := mergeListItems_append items dst
  simp [ht, h]

theorem mergeKey_preserves_truthy (k' : String) (v : PyVal) (dst : PyDict) (k : String)
    (h : truthyOpt (dget dst k) = true) :
    truthyOpt (dget (mergeKey k' v dst) k) = true := by
  by_cases hk : k' = k
  · subst hk
    rw [mergeKey.eq_def]
    split
    · rename_i sd dd heq
      rw [dget_dset_self]
      rw [heq] at h
      simp only [truthyOpt, PyVal.truthy, Bool.not_eq_true', List.isEmpty_eq_false] at h ⊢
      exact deep_merge_ne_nil _ _ h
    · rename_i sl dl heq
      rw [dget_dset_self]
      rw [heq] at h
      simp only [truthyOpt, PyVal.truthy, Bool.not_eq_true', List.isEmpty_eq_false] at h ⊢
      exact mergeListItems_ne_nil _ _ h
    · exact h
    · split
      · rename_i hcond
        rw [dget_dset_self]
        rw [h] at hcond
        simpa [truthyOpt] using hcond
      · exact h
  · rw [mergeKey.eq_def]
    split
    · rw [dget_dset_ne _ _ _ _ hk]; exact h
    · rw [dget_dset_ne _ _ _ _ hk]; exact h
    · exact h
    · split
      · rw [dget_dset_ne _ _ _ _ hk]; exact h
      · exact h

theorem deep_merge_preserves_truthy (src dst : PyDict) (k : String)
    (h : truthyOpt (dget dst k) = true) :
    truthyOpt (dget (deep_merge src dst) k) = true := by
  induction src generalizing dst with
  | nil => rw [deep_merge]; exact h
  | cons hd rest ih =>
    obtain ⟨k', v⟩ := hd
    rw [deep_merge]
    exact ih _ (mergeKey_preserves_truthy k' v dst k h)

/-- Folding a sequence of later candidates into an accumulator, as the chunk
loop of `combine_extraction_results` (functions/case_in.py) does:
`combined_data = deep_merge(data, combined_data)` for each candidate. -/
def foldCandidates (cands : List PyDict) (acc : PyDict) : PyDict :=
  cands.foldl (fun a c => deep_merge c a) acc

/-- C2: under the deep-merge-by-presence strategy, a field that is already
non-empty (truthy) in the accumulator is never overwritten by a null or
empty value from a later candidate, over any sequence of folded candidates;
in particular merging `{"name": "Acme"}` then `{"name": ""}` yields
`{"name": "Acme"}`. -/
theorem deep_merge_never_overwrites_truthy_with_empty :
    (∀ (cands : List PyDict) (acc : PyDict) (k : String),
        truthyOpt (dget acc k) = true →
        truthyOpt (dget (foldCandidates cands acc) k) = true)
    ∧ deep_merge [("name", PyVal.str "")] [("name", PyVal.str "Acme")]
        = [("name", PyVal.str "Acme")] := by
  constructor
  · intro cands acc k h
    induction cands generalizing acc with
    | nil => simpa [foldCandidates] using h
    | cons c rest ih =>
      simpa [foldCandidates] using ih _ (deep_merge_preserves_truthy c acc k h)
  · simp [deep_merge, mergeKey, dget, truthyOpt, PyVal.truthy]

/-- Witness for C2: the general conjunct applied at a concrete input. -/
theorem deep_merge_never_overwrites_truthy_with_empty_witness :
    truthyOpt (dget (foldCandidates [[("name", PyVal.str "")], [("name", PyVal.none)]]
      [("name", PyVal.str "Acme")]) "name") = true :=
  deep_merge_never_overwrites_truthy_with_empty.1
    [[("name", PyVal.str "")], [("name", PyVal.none)]]
    [("name", PyVal.str "Acme")] "name" (by decide)

/-! ## Majority-vote reconciliation
(functions/case_in/extract_predictive_data.py, combine_extraction_results)

The code normalizes composite field values with `json.dumps(..., sort_keys=True)`
(dicts) or a tuple with dict items serialized (lists), counts the normalized
values with `collections.Counter`, takes `most_common(1)`, and decodes the
winner back (`json.loads` on strings that start with a brace or bracket). -/

/-- Hex digit characters as Python's `json` emits them (lowercase). -/
def hexDigit (n : Nat) : Char := if n < 10 then Char.ofNat (48 + n) else Char.ofNat (87 + n)

/-- Four-digit lowercase hex rendering used by `\uXXXX` escapes. -/
def hex4 (n : Nat) : String :=
  String.mk [hexDigit (n / 4096 % 16), hexDigit (n / 256 % 16), hexDigit (n / 16 % 16),
    hexDigit (n % 16)]

/-- Escape of one character under `json.dumps` defaults (`ensure_ascii=True`):
quote, backslash and the short control escapes, `\uXXXX` for the other control
and all non-ASCII characters (surrogate pairs above the BMP). -/
def escChar (c : Char) : String :=
  if c = Char.ofNat 34 then "\\\""
  else if c = Char.ofNat 92 then "\\\\"
  else if c = Char.ofNat 10 then "\\n"
  else if c = Char.ofNat 9 then "\\t"
  else if c = Char.ofNat 13 then "\\r"
  else if c = Char.ofNat 8 then "\\b"
  else if c = Char.ofNat 12 then "\\f"
  else if c.toNat < 32 then "\\u" ++ hex4 c.toNat
  else if c.toNat < 127 then String.singleton c
  else if c.toNat < 65536 then "\\u" ++ hex4 c.toNat
  else
    "\\u" ++ hex4 (55296 + (c.toNat - 65536) / 1024) ++
    "\\u" ++ hex4 (56320 + (c.toNat - 65536) % 1024)

/-- `json.dumps` of a string: quoted, with every character escaped as needed. -/
def dumpStr (s : String) : String :=
  "\"" ++ String.join (s.data.map escChar) ++ "\""

/-- Renders the sorted, serialized entries of an object with the default
separators (`", "` and `": "`). -/
def renderEntries : List (String × String) → String
  | [] => ""
  | [(k, sv)] => dumpStr k ++ ": " ++ sv
  | (k, sv) :: rest => dumpStr k ++ ": " ++ sv ++ ", " ++ renderEntries rest

mutual

/-- `json.dumps(value, sort_keys=True)`: canonical JSON text of a value, with
object keys sorted (by code points, as Python compares strings) at every
nesting level. -/
def dumps : PyVal → String
  | .none => "null"
  | .bool true => "true"
  | .bool false => "false"
  | .int n => toString n
  | .str s => dumpStr s
  | .list xs => "[" ++ dumpsItems xs ++ "]"
  | .dict d =>
      "\x7b" ++ renderEntries ((dumpsEntries d).mergeSort (fun a b => decide (a.1 ≤ b.1))) ++ "\x7d"

/-- Comma-separated serialization of array items. -/
def dumpsItems : List PyVal → String
  | [] => ""
  | [x] => dumps x
  | x :: y :: rest => dumps x ++ ", " ++ dumpsItems (y :: rest)

/-- Serializes each dict entry's value, keeping the key for sorting. -/
def dumpsEntries : List (String × PyVal) → List (String × String)
  | [] => []
  | (k, v) :: rest => (k, dumps v) :: dumpsEntries rest

end

/-- One-level canonicalization of Python scalars under `==`/`hash`:
`True == 1` and `False == 0` in Python, so booleans collapse to integers. -/
def canonScalar : PyVal → PyVal
  | .bool b => .int (if b then 1 else 0)
  | v => v

/-- Canonical form of a hashable normalized observation under Python
`==`/`hash`: booleans collapse to integers, tuples itemwise (items of
hashable normalized observations are scalars). -/
def canonKey : PyVal → PyVal
  | .bool b => .int (if b then 1 else 0)
  | .list xs => .list (xs.map canonScalar)
  | v => v

/-- Python `==` between Counter keys (hashable normalized observations). -/
def pyEq (a b : PyVal) : Bool := canonKey a == canonKey b

/-- Normalization of one item of a list-valued field: dict items are
serialized (`json.dumps(i, sort_keys=True)`), everything else is kept. -/
def normItem : PyVal → PyVal
  | .dict d => .str (dumps (.dict d))
  | v => v

/-- Normalization of a field value before counting: dicts are serialized to
their sorted-key JSON text, lists become the tuple of their normalized
items, scalars are kept as-is. -/
def normObs : PyVal → PyVal
  | .dict d => .str (dumps (.dict d))
  | .list xs => .list (xs.map normItem)
  | v => v

/-- Whether a normalized observation is hashable in Python: a tuple
containing a list (or dict) element is unhashable, and `Counter` raises
`TypeError` on it. -/
def normHashable : PyVal → Bool
  | .list xs => xs.all fun i =>
      match i with
      | .list _ => false
      | .dict _ => false
      | _ => true
  | .dict _ => false
  | _ => true

/-- The valid attempts: mappings without an `"error"` key
(`isinstance(a, dict) and "error" not in a`), in arrival order. -/
def validAttempts (attempts : List PyVal) : List PyDict :=
  attempts.filterMap fun a =>
    match a with
    | .dict d => if (dget d "error").isSome then Option.none else some d
    | _ => Option.none

/-- The non-null normalized observations for one schema field across the
valid attempts, in arrival order (`if field in attempt and attempt[field] is
not None`). -/
def obsList (field : String) (valid : List PyDict) : List PyVal :=
  valid.filterMap fun a =>
    match dget a field with
    | some v => if v = PyVal.none then Option.none else some (normObs v)
    | Option.none => Option.none

/-- The field names of the canonical `Case` schema
(`Case.model_fields.keys()`, functions/models.py), in declaration order. -/
def caseFields : List String :=
  ["case_reference", "decision_date", "decision_maker", "jurisdiction",
   "application_number", "applicant_name", "opponent_name", "applicant_marks",
   "opponent_marks", "grounds_for_opposition", "proof_of_use_requested",
   "proof_of_use_outcome", "goods_services_comparison", "mark_comparison",
   "distinctive_character", "average_consumer_attention", "likelihood_of_confusion",
   "confusion_type", "opposition_outcome", "other_grounds", "decision_rationale",
   "global_assessment_notes"]

/-- Inserting one observation into a `Counter`: the count of the first entry
equal (Python `==`) to it is bumped, otherwise a new entry is appended. The
stored key is the first-seen representative, as in Python dicts. -/
def tallyAdd (t : List (PyVal × Nat)) (o : PyVal) : List (PyVal × Nat) :=
  match t with
  | [] => [(o, 1)]
  | (k, n) :: rest => if pyEq k o then (k, n + 1) :: rest else (k, n) :: tallyAdd rest o

/-- `Counter(all_values)` as an insertion-ordered association list. -/
def tally (obs : List PyVal) : List (PyVal × Nat) := obs.foldl tallyAdd []

/-- The selection step of `heapq.nlargest(1, ...)` over the counter items:
keep the current best, replacing it only on a strictly greater count — a
stable descending selection, so ties keep insertion order. -/
def pickBest (best : Option (PyVal × Nat)) (p : PyVal × Nat) : Option (PyVal × Nat) :=
  match best with
  | Option.none => some p
  | some q => if p.2 > q.2 then some p else some q

/-- `Counter(all_values).most_common(1)[0][0]`: the first key (in insertion,
i.e. first-seen, order) holding the maximal count. -/
def mostCommon1 (obs : List PyVal) : Option PyVal :=
  ((tally obs).foldl pickBest Option.none).map Prod.fst

/-! ### json.loads (Python standard library, used by the decode step)

A fueled JSON reader sufficient for the values this code round-trips:
`null`, booleans, integers, strings with escapes, arrays and objects.
Fractional and exponent number forms are outside the modelled value domain
(the `PyVal` model carries no floats, and none of the reconciliation claims
depend on them): they make the decode fail, i.e. behave as malformed input. -/

/-- JSON insignificant whitespace. -/
def isJsonWs (c : Char) : Bool :=
  c = Char.ofNat 32 || c = Char.ofNat 9 || c = Char.ofNat 10 || c = Char.ofNat 13

/-- Drops leading JSON whitespace. -/
def skipWs (cs : List Char) : List Char := cs.dropWhile isJsonWs

/-- Reads the remainder of a quoted JSON string (after the opening quote),
handling the standard escapes; `\uXXXX` yields the encoded unit directly. -/
def readStr (acc : List Char) : List Char → Option (String × List Char)
  | [] => Option.none
  | c :: rest =>
    if c = '"' then some (String.mk acc.reverse, rest)
    else if c = '\\' then
      match rest with
      | [] => Option.none
      | e :: rest2 =>
        if e = '"' then readStr ('"' :: acc) rest2
        else if e = '\\' then readStr ('\\' :: acc) rest2
        else if e = '/' then readStr ('/' :: acc) rest2
        else if e = 'n' then readStr (Char.ofNat 10 :: acc) rest2
        else if e = 't' then readStr (Char.ofNat 9 :: acc) rest2
        else if e = 'r' then readStr (Char.ofNat 13 :: acc) rest2
        else if e = 'b' then readStr (Char.ofNat 8 :: acc) rest2
        else if e = 'f' then readStr (Char.ofNat 12 :: acc) rest2
        else if e = 'u' then
          match rest2 with
          | h1 :: h2 :: h3 :: h4 :: rest3 =>
            let hv : Char → Option Nat := fun h =>
              if 48 ≤ h.toNat ∧ h.toNat ≤ 57 then some (h.toNat - 48)
              else if 97 ≤ h.toNat ∧ h.toNat ≤ 102 then some (h.toNat - 87)
              else if 65 ≤ h.toNat ∧ h.toNat ≤ 70 then some (h.toNat - 55)
              else Option.none
            match hv h1, hv h2, hv h3, hv h4 with
            | some a, some b, some c', some d =>
              let n := a * 4096 + b * 256 + c' * 16 + d
              if h : n.isValidChar then readStr (Char.ofNatAux n h :: acc) rest3
              else Option.none
            | _, _, _, _ => Option.none
          | _ => Option.none
        else Option.none
    else readStr (c :: acc) rest

/-- Reads a run of ASCII digits. -/
def readDigits (acc : List Char) : List Char → List Char × List Char
  | [] => (acc.reverse, [])
  | c :: rest =>
    if 48 ≤ c.toNat ∧ c.toNat ≤ 57 then readDigits (c :: acc) rest
    else (acc.reverse, c :: rest)

/-- Digit list to natural number value. -/
def digitsToNat (ds : List Char) : Nat :=
  ds.foldl (fun n c => n * 10 + (c.toNat - 48)) 0

/-- Reads a JSON integer (sign and digits, rejecting leading zeros and the
fractional/exponent forms that would produce a Python float). -/
def readInt (cs : List Char) : Option (Int × List Char) :=
  let (neg, cs1) : Bool × List Char :=
    match cs with
    | c :: rest => if c = '-' then (true, rest) else (false, cs)
    | [] => (false, [])
  match readDigits [] cs1 with
  | ([], _) => Option.none
  | (d :: ds, rest) =>
    if d = '0' ∧ ds ≠ [] then Option.none
    else
      match rest with
      | r :: _ =>
        if r = '.' ∨ r = 'e' ∨ r = 'E' then Option.none
        else
          let n : Int := Int.ofNat (digitsToNat (d :: ds))
          some (if neg then -n else n, rest)
      | [] =>
        let n : Int := Int.ofNat (digitsToNat (d :: ds))
        some (if neg then -n else n, rest)

mutual

/-- Fueled JSON value reader: returns the value and unconsumed input. -/
def jsonVal : Nat → List Char → Option (PyVal × List Char)
  | 0, _ => Option.none
  | fuel + 1, cs =>
    match skipWs cs with
    | [] => Option.none
    | c :: rest =>
      if c = '"' then
        match readStr [] rest with
        | some (s, rest2) => some (.str s, rest2)
        | Option.none => Option.none
      else if c = '[' then jsonArr fuel rest true
      else if c = Char.ofNat 123 then jsonObj fuel rest true
      else if c = 'n' then
        match rest with
        | 'u' :: 'l' :: 'l' :: rest2 => some (.none, rest2)
        | _ => Option.none
      else if c = 't' then
        match rest with
        | 'r' :: 'u' :: 'e' :: rest2 => some (.bool true, rest2)
        | _ => Option.none
      else if c = 'f' then
        match rest with
        | 'a' :: 'l' :: 's' :: 'e' :: rest2 => some (.bool false, rest2)
        | _ => Option.none
      else
        match readInt (c :: rest) with
        | some (n, rest2) => some (.int n, rest2)
        | Option.none => Option.none

/-- Fueled reader for the items of an array (after `[`); `first` is true
before the first item. -/
def jsonArr : Nat → List Char → Bool → Option (PyVal × List Char)
  | 0, _, _ => Option.none
  | fuel + 1, cs, first =>
    match skipWs cs with
    | [] => Option.none
    | c :: rest =>
      if c = ']' ∧ first then some (.list [], rest)
      else
        match jsonVal fuel (c :: rest) with
        | Option.none => Option.none
        | some (v, rest2) =>
          match skipWs rest2 with
          | c2 :: rest3 =>
            if c2 = ',' then
              match jsonArr fuel rest3 false with
              | some (.list vs, rest4) => some (.list (v :: vs), rest4)
              | _ => Option.none
            else if c2 = ']' then some (.list [v], rest3)
            else Option.none
          | [] => Option.none

/-- Fueled reader for the members of an object (after the opening brace);
duplicate keys follow Python semantics (`dset`: last value, first position). -/
def jsonObj : Nat → List Char → Bool → Option (PyVal × List Char)
  | 0, _, _ => Option.none
  | fuel + 1, cs, first =>
    match skipWs cs with
    | [] => Option.none
    | c :: rest =>
      if c = Char.ofNat 125 ∧ first then some (.dict [], rest)
      else if c = '"' then
        match readStr [] rest with
        | Option.none => Option.none
        | some (k, rest2) =>
          match skipWs rest2 with
          | c1 :: rest3 =>
            if c1 = ':' then
              match jsonVal fuel rest3 with
              | Option.none => Option.none
              | some (v, rest4) =>
                match skipWs rest4 with
                | c2 :: rest5 =>
                  if c2 = ',' then
                    match jsonObj fuel rest5 false with
                    | some (.dict d, rest6) =>
                        some (.dict (d.foldl (fun acc p => dset acc p.1 p.2) [(k, v)]), rest6)
                    | _ => Option.none
                  else if c2 = Char.ofNat 125 then some (.dict [(k, v)], rest5)
                  else Option.none
                | [] => Option.none
            else Option.none
          | [] => Option.none
      else Option.none

end

/-- `json.loads(s)`: the whole input must be one JSON value surrounded only
by whitespace. -/
def jsonLoads (s : String) : Option PyVal :=
  match jsonVal (2 * s.length + 4) s.data with
  | some (v, rest) => if (skipWs rest).isEmpty then some v else Option.none
  | Option.none => Option.none

/-- `s.startswith('\x7b') or s.startswith('[')`. -/
def startsBrace (s : String) : Bool :=
  match s.data with
  | c :: _ => c = Char.ofNat 123 || c = '['
  | [] => false

/-- The decode step applied to the winning value: a string that looks like
JSON is decoded (`json.loads`, keeping the string when decoding fails,
thanks to the surrounding `try`); a tuple becomes a list whose
JSON-looking string items are decoded with a bare `json.loads`, which
raises on malformed items; every other value is returned untouched. -/
def decodeFinal : PyVal → Except String PyVal
  | .str s =>
    .ok (if startsBrace s then
          match jsonLoads s with
          | some v => v
          | Option.none => .str s
        else .str s)
  | .list xs => do
    let ys ← xs.mapM fun i =>
      match i with
      | .str s =>
        if startsBrace s then
          match jsonLoads s with
          | some v => Except.ok v
          | Option.none => Except.error "json.decoder.JSONDecodeError"
        else Except.ok (.str s)
      | i => Except.ok i
    pure (.list ys)
  | v => .ok v

/-- The value stored in `final_data[field]` by the per-field loop of
`combine_extraction_results`: `None` when no candidate supplied a non-null
value, otherwise the decoded most-common normalized observation; `Counter`
raises `TypeError` when an observation is unhashable. -/
def fieldResult (valid : List PyDict) (field : String) : Except String PyVal :=
  let obs := obsList field valid
  if obs.isEmpty then .ok PyVal.none
  else if obs.all normHashable then
    match mostCommon1 obs with
    | some mc => decodeFinal mc
    | Option.none => .ok PyVal.none
  else .error "TypeError: unhashable type"

/-- The per-field loop: fold over the schema fields, storing each field's
consolidated value (or `None`) in `final_data`. -/
def mvFold (valid : List PyDict) (fields : List String) (acc : PyDict) :
    Except String PyDict :=
  fields.foldlM (fun fd field => do
    let v ← fieldResult valid field
    pure (dset fd field v)) acc

/-- `combine_extraction_results` (extract_predictive_data.py) up to, but not
including, the final pydantic validation: filters the valid attempts,
raises `ValueError` when none remain, then fills `final_data` field by
field over the canonical `Case` schema. -/
def combineFinalData (attempts : List PyVal) : Except String PyDict :=
  let valid := validAttempts attempts
  if valid.isEmpty then .error "No successful extraction attempts to combine."
  else mvFold valid caseFields []

/-! ## Deep-merge reconciliation
(functions/case_in.py, combine_extraction_results, lines 279-317) -/

/-- `Case.model_construct().model_dump()`: the skeleton the merge starts
from. `model_construct()` with no values sets only the fields that declare
defaults, which in `Case` are exactly these seven optional fields, all
defaulting to `None` (functions/models.py). -/
def caseSkeleton : PyDict :=
  [("jurisdiction", PyVal.none), ("proof_of_use_outcome", PyVal.none),
   ("confusion_type", PyVal.none), ("opposition_outcome", PyVal.none),
   ("other_grounds", PyVal.none), ("decision_rationale", PyVal.none),
   ("global_assessment_notes", PyVal.none)]

/-- Python `pat in s` for strings: substring containment. -/
def pyInStr (pat s : String) : Bool := 1 < (s.splitOn pat).length

/-- `"error" in data or not data`: the skip test of the chunk loop.
For a dict `in` checks keys, for a list it checks elements, for a string it
checks substrings; any other operand makes Python raise `TypeError`. -/
def dataSkip : PyVal → Except String Bool
  | .dict d => .ok ((dget d "error").isSome || d.isEmpty)
  | .list xs => .ok (xs.contains (PyVal.str "error") || xs.isEmpty)
  | .str s => .ok (pyInStr "error" s || s = "")
  | _ => .error "TypeError: argument is not iterable"

/-- One iteration of the chunk loop of the deep-merge
`combine_extraction_results`: read `extracted_data` (default empty dict),
skip error-tagged or empty data, unwrap a single-element list, skip
non-dict payloads, otherwise deep-merge into the accumulator. -/
def dmStep (acc : PyDict) (r : PyDict) : Except String PyDict := do
  let data := (dget r "extracted_data").getD (.dict [])
  let skip ← dataSkip data
  if skip then pure acc
  else
    let data2 :=
      match data with
      | .list (x :: _) => x
      | d => d
    match data2 with
    | .dict d => pure (deep_merge d acc)
    | _ => pure acc

/-- `combine_extraction_results(results, structure_data)` of
functions/case_in.py: starts from the `Case` skeleton, pre-merges
`structure_data["case_details"]` when present, then folds every chunk
result in. It has no failure path of its own: it always returns the
accumulated mapping (the `Except` layer only carries the `TypeError` a
non-iterable payload would raise inside the skip test). -/
def combine_extraction_results_dm (results : List PyDict) (structure_data : PyDict) :
    Except String PyDict := do
  let combined ←
    match dget structure_data "case_details" with
    | Option.none => pure caseSkeleton
    | some (.dict cd) => pure (deep_merge cd caseSkeleton)
    | some _ => Except.error "AttributeError: items"
  results.foldlM dmStep combined

theorem mvFold_dget (valid : List PyDict) (fields : List String) (acc fd : PyDict)
    (hnd : fields.Nodup) (h : mvFold valid fields acc = .ok fd) :
    (∀ k, k ∉ fields → dget fd k = dget acc k)
    ∧ (∀ k ∈ fields, ∃ v, fieldResult valid k = .ok v ∧ dget fd k = some v) := by
  induction fields generalizing acc with
  | nil =>
    simp only [mvFold, List.foldlM_nil] at h
    cases h
    exact ⟨fun k _ => rfl, by simp⟩
  | cons f rest ih =>
    simp only [mvFold, List.foldlM_cons] at h
    rcases hv : fieldResult valid f with e | v
    · rw [hv] at h
      simp [bind, Except.bind] at h
    · rw [hv] at h
      simp only [bind, Except.bind, pure, Except.pure] at h
      have hnd' := hnd
      rw [List.nodup_cons] at hnd'
      obtain ⟨hfnotin, hndrest⟩ := hnd'
      obtain ⟨h1, h2⟩ := ih (dset acc f v) hndrest (by simpa [mvFold] using h)
      constructor
      · intro k hk
        simp only [List.mem_cons, not_or] at hk
        rw [h1 k hk.2, dget_dset_ne _ _ _ _ (fun hh => hk.1 hh.symm)]
      · intro k hk
        rcases List.mem_cons.mp hk with hkf | hkrest
        · subst hkf
          refine ⟨v, hv, ?_⟩
          rw [h1 k hfnotin, dget_dset_self]
        · exact h2 k hkrest

/-- C9: the mapping built by the majority-vote reconciler before validation
has exactly the keys of the `Case` schema: keys outside the schema never
appear, every schema field is present, and a field with no non-null
observation across the valid candidates is set to `None`. -/
theorem combineFinalData_exact_keys (attempts : List PyVal) (fd : PyDict)
    (h : combineFinalData attempts = .ok fd) :
    (∀ k, k ∉ caseFields → dget fd k = Option.none)
    ∧ (∀ k ∈ caseFields, ∃ v, dget fd k = some v)
    ∧ (∀ k ∈ caseFields, obsList k (validAttempts attempts) = [] →
        dget fd k = some PyVal.none) := by
  unfold combineFinalData at h
  by_cases he : (validAttempts attempts).isEmpty
  · simp [he] at h
  · rw [if_neg he] at h
    have hnd : caseFields.Nodup := by decide
    obtain ⟨h1, h2⟩ := mvFold_dget (validAttempts attempts) caseFields [] fd hnd h
    refine ⟨fun k hk => by simpa [dget] using h1 k hk, fun k hk => ?_, fun k hk hobs => ?_⟩
    · obtain ⟨v, _, hget⟩ := h2 k hk
      exact ⟨v, hget⟩
    · obtain ⟨v, hfr, hget⟩ := h2 k hk
      rw [fieldResult, hobs] at hfr
      simp only [List.isEmpty_nil, if_pos] at hfr
      cases hfr
      exact hget

/-- Witness for C9: a single valid empty-mapping attempt yields the mapping
with every schema field set to `None` and nothing else. -/
theorem combineFinalData_exact_keys_witness :
    dget (caseFields.map fun f => (f, PyVal.none)) "case_reference" = some PyVal.none :=
  (combineFinalData_exact_keys [PyVal.dict []] (caseFields.map fun f => (f, PyVal.none))
      (by rfl)).2.2 "case_reference" (by decide) (by rfl)

/-- A chunk result that cannot contribute fields under the deep-merge
strategy: its payload is an error-tagged or empty dict, a string, or a list
that is empty, error-tagged, or does not wrap a dict as first element. -/
def dmNonContributing (r : PyDict) : Bool :=
  match (dget r "extracted_data").getD (.dict []) with
  | .dict d => (dget d "error").isSome || d.isEmpty
  | .str _ => true
  | .list xs =>
      xs.contains (PyVal.str "error") || xs.isEmpty ||
      (match xs.head? with
       | some (.dict _) => false
       | _ => true)
  | _ => false

theorem dmStep_of_nonContributing (acc : PyDict) (r : PyDict)
    (h : dmNonContributing r = true) : dmStep acc r = .ok acc := by
  unfold dmNonContributing at h
  unfold dmStep
  split at h
  · rename_i d heq
    rw [heq]
    simp only [dataSkip, bind, Except.bind]
    rw [if_pos h]
    rfl
  · rename_i s heq
    rw [heq]
    simp only [dataSkip, bind, Except.bind]
    by_cases hs : (pyInStr "error" s || s = "") = true
    · rw [if_pos hs]; rfl
    · rw [if_neg hs]; rfl
  · rename_i xs heq
    rw [heq]
    simp only [dataSkip, bind, Except.bind]
    by_cases hs : (xs.contains (PyVal.str "error") || xs.isEmpty) = true
    · rw [if_pos hs]; rfl
    · rw [if_neg hs]
      simp only [hs, Bool.false_or] at h
      match xs, h with
      | [], _ => simp at hs
      | x :: rest, h =>
        cases x <;> simp_all <;> rfl
  · simp at h

/-- C5 counterexample: on the empty candidate list the deep-merge
reconciliation does not raise; it silently returns the skeleton mapping
built from `Case.model_construct().model_dump()`. -/
theorem combine_dm_empty_returns_skeleton :
    combine_extraction_results_dm [] [] = .ok caseSkeleton := rfl

/-- C5 (amended): the majority-vote strategy does fail fast, raising
`ValueError("No successful extraction attempts to combine.")` whenever no
candidate is a non-error mapping; but the deep-merge strategy does not: on
an empty result list, or one whose every chunk payload is error-tagged or
non-mapping, it silently returns the pre-populated skeleton record. -/
theorem reconciliation_fail_fast_mv_only :
    (∀ attempts : List PyVal, validAttempts attempts = [] →
        combineFinalData attempts = .error "No successful extraction attempts to combine.")
    ∧ (∀ results : List PyDict, results.all dmNonContributing = true →
        combine_extraction_results_dm results [] = .ok caseSkeleton) := by
  constructor
  · intro attempts h
    simp [combineFinalData, h]
  · intro results h
    have : ∀ acc : PyDict, results.foldlM dmStep acc = .ok acc := by
      induction results with
      | nil => intro acc; rfl
      | cons r rest ih =>
        intro acc
        simp only [List.all_cons, Bool.and_eq_true] at h
        simp only [List.foldlM_cons, dmStep_of_nonContributing acc r h.1]
        exact ih h.2 acc
    simpa [combine_extraction_results_dm, dget] using this caseSkeleton

/-- Witness for C5: both conjuncts applied at concrete inputs (an
error-tagged attempt plus a non-mapping one, and an error-tagged chunk
payload). -/
theorem reconciliation_fail_fast_mv_only_witness :
    combineFinalData [PyVal.dict [("error", PyVal.str "boom")], PyVal.str "junk"]
        = .error "No successful extraction attempts to combine."
    ∧ combine_extraction_results_dm
        [[("extracted_data", PyVal.dict [("error", PyVal.str "boom")])]] []
        = .ok caseSkeleton :=
  ⟨reconciliation_fail_fast_mv_only.1 _ (by decide),
   reconciliation_fail_fast_mv_only.2 _ (by decide)⟩

/-! ### The first-seen-mode specification of `most_common(1)`

`countEq v obs` and `firstIdx v obs` express, over Python `==`
(`pyEq`), how often the class of `v` occurs in the observation list and
where it first occurs; `IsFirstSeenMode` is the spec's notion of the
winner: maximal count, earliest first occurrence among the tied. -/

/-- How many observations are Python-equal to `v`. -/
def countEq (v : PyVal) : List PyVal → Nat
  | [] => 0
  | o :: rest => (if pyEq v o then 1 else 0) + countEq v rest

/-- Index of the first observation Python-equal to `v` (list length when
none is). -/
def firstIdx (v : PyVal) : List PyVal → Nat
  | [] => 0
  | o :: rest => if pyEq v o then 0 else firstIdx v rest + 1

/-- `v` is the value `most_common(1)` must return according to the spec:
it occurs, its count is maximal, and among the tied it is first seen. -/
def IsFirstSeenMode (obs : List PyVal) (v : PyVal) : Prop :=
  v ∈ obs
  ∧ (∀ w ∈ obs, countEq w obs ≤ countEq v obs)
  ∧ (∀ w ∈ obs, countEq w obs = countEq v obs → firstIdx v obs ≤ firstIdx w obs)

theorem pyEq_refl (a : PyVal) : pyEq a a = true := by simp [pyEq]

theorem pyEq_iff (a b : PyVal) : pyEq a b = true ↔ canonKey a = canonKey b := by
  simp [pyEq]

theorem pyEq_pointwise {a b : PyVal} (h : pyEq a b = true) (o : PyVal) :
    pyEq a o = pyEq b o := by
  rw [pyEq_iff] at h
  simp [pyEq, h]

theorem pyEq_symm {a b : PyVal} (h : pyEq a b = true) : pyEq b a = true := by
  rw [pyEq_iff] at *
  exact h.symm

theorem countEq_congr {a b : PyVal} (h : pyEq a b = true) (obs : List PyVal) :
    countEq a obs = countEq b obs := by
  induction obs with
  | nil => rfl
  | cons o rest ih => simp [countEq, pyEq_pointwise h o, ih]

theorem firstIdx_congr {a b : PyVal} (h : pyEq a b = true) (obs : List PyVal) :
    firstIdx a obs = firstIdx b obs := by
  induction obs with
  | nil => rfl
  | cons o rest ih => simp [firstIdx, pyEq_pointwise h o, ih]

theorem countEq_append (v : PyVal) (P Q : List PyVal) :
    countEq v (P ++ Q) = countEq v P + countEq v Q := by
  induction P with
  | nil => simp [countEq]
  | cons o rest ih => simp [countEq, ih]; omega

theorem firstIdx_append_of_present {v : PyVal} {P : List PyVal}
    (h : ∃ x ∈ P, pyEq v x = true) (Q : List PyVal) :
    firstIdx v (P ++ Q) = firstIdx v P := by
  induction P with
  | nil => simp at h
  | cons o rest ih =>
    by_cases ho : pyEq v o = true
    · simp [firstIdx, ho]
    · have : ∃ x ∈ rest, pyEq v x = true := by
        obtain ⟨x, hx, hpx⟩ := h
        rcases List.mem_cons.mp hx with rfl | hxr
        · exact absurd hpx ho
        · exact ⟨x, hxr, hpx⟩
      simp [firstIdx, ho, ih this]

theorem firstIdx_lt_length_of_present {v : PyVal} {P : List PyVal}
    (h : ∃ x ∈ P, pyEq v x = true) :
    firstIdx v P < P.length := by
  induction P with
  | nil => simp at h
  | cons o rest ih =>
    by_cases ho : pyEq v o = true
    · simp [firstIdx, ho]
    · have : ∃ x ∈ rest, pyEq v x = true := by
        obtain ⟨x, hx, hpx⟩ := h
        rcases List.mem_cons.mp hx with rfl | hxr
        · exact absurd hpx ho
        · exact ⟨x, hxr, hpx⟩
      have := ih this
      simp only [firstIdx, List.length_cons]
      rw [if_neg ho]
      omega

theorem firstIdx_append_of_absent {v : PyVal} {P : List PyVal}
    (h : ∀ x ∈ P, pyEq v x = false) (Q : List PyVal) :
    firstIdx v (P ++ Q) = P.length + firstIdx v Q := by
  induction P with
  | nil => simp [firstIdx]
  | cons o rest ih =>
    have ho := h o (by simp)
    have hrest : ∀ x ∈ rest, pyEq v x = false := fun x hx => h x (by simp [hx])
    simp only [List.cons_append, firstIdx, List.length_cons]
    rw [if_neg (by simp [ho]), show rest.append Q = rest ++ Q from rfl, ih hrest]
    omega

theorem countEq_eq_zero {v : PyVal} {P : List PyVal}
    (h : ∀ x ∈ P, pyEq v x = false) : countEq v P = 0 := by
  induction P with
  | nil => rfl
  | cons o rest ih =>
    have := h o (by simp)
    simp [countEq, this, ih fun x hx => h x (by simp [hx])]

/-- Shape of one `Counter` insertion: either the first matching entry gets
its count bumped (entries before it do not match), or no entry matches and
a fresh `(o, 1)` entry is appended. -/
theorem tallyAdd_cases (t : List (PyVal × Nat)) (o : PyVal) :
    (∃ t1 p t2, t = t1 ++ p :: t2 ∧ (∀ q ∈ t1, pyEq q.1 o = false) ∧ pyEq p.1 o = true
      ∧ tallyAdd t o = t1 ++ (p.1, p.2 + 1) :: t2)
    ∨ ((∀ q ∈ t, pyEq q.1 o = false) ∧ tallyAdd t o = t ++ [(o, 1)]) := by
  induction t with
  | nil => right; exact ⟨by simp, rfl⟩
  | cons p rest ih =>
    obtain ⟨k, n⟩ := p
    by_cases h : pyEq k o = true
    · left
      exact ⟨[], (k, n), rest, by simp, by simp, h, by simp [tallyAdd, h]⟩
    · rcases ih with ⟨t1, q, t2, heq, ht1, hq, hres⟩ | ⟨hall, hres⟩
      · left
        refine ⟨(k, n) :: t1, q, t2, by simp [heq], ?_, hq, ?_⟩
        · intro q' hq'
          rcases List.mem_cons.mp hq' with rfl | hin
          · simpa using h
          · exact ht1 q' hin
        · simp [tallyAdd, h, hres]
      · right
        refine ⟨?_, by simp [tallyAdd, h, hres]⟩
        intro q' hq'
        rcases List.mem_cons.mp hq' with rfl | hin
        · simpa using h
        · exact hall q' hin

/-- Invariant tying the counter state `t` to the observations `P` consumed
so far: every entry stores a first-seen representative with its exact
class count; every consumed observation has a representative; keys are
pairwise inequivalent and listed in order of first occurrence. -/
def TallyInv (P : List PyVal) (t : List (PyVal × Nat)) : Prop :=
  (∀ p ∈ t, p.1 ∈ P ∧ p.2 = countEq p.1 P)
  ∧ (∀ o ∈ P, ∃ p ∈ t, pyEq p.1 o = true)
  ∧ (t.map Prod.fst).Pairwise (fun a b => pyEq a b = false)
  ∧ (t.map Prod.fst).Pairwise (fun a b => firstIdx a P < firstIdx b P)

theorem firstIdx_append_keep {a : PyVal} {P : List PyVal} (ha : a ∈ P) (Q : List PyVal) :
    firstIdx a (P ++ Q) = firstIdx a P :=
  firstIdx_append_of_present ⟨a, ha, pyEq_refl a⟩ Q

theorem countEq_append_singleton (v o : PyVal) (P : List PyVal) :
    countEq v (P ++ [o]) = countEq v P + (if pyEq v o then 1 else 0) := by
  rw [countEq_append]
  simp [countEq]

theorem tallyAdd_inv {P : List PyVal} {t : List (PyVal × Nat)} {o : PyVal}
    (h : TallyInv P t) : TallyInv (P ++ [o]) (tallyAdd t o) := by
  obtain ⟨hmem, hcover, hdist, horder⟩ := h
  have horder' : (t.map Prod.fst).Pairwise
      (fun a b => firstIdx a (P ++ [o]) < firstIdx b (P ++ [o])) := horder.imp_of_mem (by
    intro a b ha hb hab
    have hain : a ∈ P := by
      obtain ⟨q, hq, hq1⟩ := List.mem_map.mp ha
      exact hq1 ▸ (hmem q hq).1
    have hbin : b ∈ P := by
      obtain ⟨q, hq, hq1⟩ := List.mem_map.mp hb
      exact hq1 ▸ (hmem q hq).1
    rw [firstIdx_append_keep hain (Q := [o]), firstIdx_append_keep hbin (Q := [o])]
    exact hab)
  rcases tallyAdd_cases t o with ⟨t1, p, t2, heq, ht1, hp, hres⟩ | ⟨hall, hres⟩
  · -- an existing entry is bumped
    obtain ⟨pk, pn⟩ := p
    simp only at hp hres
    have hkeys : (tallyAdd t o).map Prod.fst = t.map Prod.fst := by
      rw [hres, heq]; simp
    have hpmem : (pk, pn) ∈ t := by rw [heq]; simp
    have hpk_t2 : ∀ b ∈ t2.map Prod.fst, pyEq pk b = false := by
      have h0 : (t.map Prod.fst).Pairwise (fun a b => pyEq a b = false) := hdist
      rw [heq] at h0
      simp only [List.map_append, List.map_cons] at h0
      have h1 := (List.pairwise_append.mp h0).2.1
      exact (List.pairwise_cons.mp h1).1
    -- every entry other than the bumped one does not match o
    have hstable1 : ∀ q ∈ t1, pyEq q.1 o = false := ht1
    have hstable2 : ∀ q ∈ t2, pyEq q.1 o = false := by
      intro q hq
      by_contra hqo
      simp only [Bool.not_eq_false] at hqo
      have : pyEq pk q.1 = true := by
        rw [pyEq_iff] at hp hqo ⊢
        rw [hp, hqo]
      have := hpk_t2 q.1 (List.mem_map_of_mem Prod.fst hq)
      simp_all
    refine ⟨?_, ?_, ?_, ?_⟩
    · intro q hq
      rw [hres] at hq
      rcases List.mem_append.mp hq with hq1 | hq2
      · have hqt : q ∈ t := by rw [heq]; exact List.mem_append.mpr (.inl hq1)
        obtain ⟨hin, hcount⟩ := hmem q hqt
        exact ⟨List.mem_append.mpr (.inl hin), by
          rw [countEq_append_singleton, hstable1 q hq1]
          simp [hcount]⟩
      · rcases List.mem_cons.mp hq2 with hqp | hq2
        · obtain ⟨hin, hcount⟩ := hmem (pk, pn) hpmem
          subst hqp
          refine ⟨List.mem_append.mpr (.inl hin), ?_⟩
          rw [countEq_append_singleton]
          simp only at hcount ⊢
          rw [if_pos hp, ← hcount]
        · have hqt : q ∈ t := by rw [heq]; simp [hq2]
          obtain ⟨hin, hcount⟩ := hmem q hqt
          exact ⟨List.mem_append.mpr (.inl hin), by
            rw [countEq_append_singleton, hstable2 q hq2]
            simp [hcount]⟩
    · intro x hx
      rcases List.mem_append.mp hx with hx1 | hx2
      · obtain ⟨q, hq, hpq⟩ := hcover x hx1
        rw [heq] at hq
        rcases List.mem_append.mp hq with h1 | h2
        · exact ⟨q, by rw [hres]; exact List.mem_append.mpr (.inl h1), hpq⟩
        · rcases List.mem_cons.mp h2 with hqp | h2
          · refine ⟨(pk, pn + 1), by rw [hres]; simp, ?_⟩
            have : q.1 = pk := by rw [hqp]
            simpa [this] using hpq
          · exact ⟨q, by rw [hres]; simp [h2], hpq⟩
      · have hxo : x = o := by simpa using hx2
        subst hxo
        exact ⟨(pk, pn + 1), by rw [hres]; simp, hp⟩
    · rw [hkeys]; exact hdist
    · rw [hkeys]; exact horder'
  · -- no entry matches: a fresh entry is appended
    have hPzero : ∀ x ∈ P, pyEq o x = false := by
      intro x hx
      by_contra hox
      simp only [Bool.not_eq_false] at hox
      obtain ⟨q, hq, hpq⟩ := hcover x hx
      have : pyEq q.1 o = true := by
        rw [pyEq_iff] at hpq hox ⊢
        rw [hpq, hox]
      simp [hall q hq] at this
    refine ⟨?_, ?_, ?_, ?_⟩
    · intro q hq
      rw [hres] at hq
      rcases List.mem_append.mp hq with hq1 | hq2
      · obtain ⟨hin, hcount⟩ := hmem q hq1
        exact ⟨List.mem_append.mpr (.inl hin), by
          rw [countEq_append_singleton, hall q hq1]
          simp [hcount]⟩
      · have hqo : q = (o, 1) := by simpa using hq2
        rw [hqo]
        refine ⟨List.mem_append.mpr (.inr (by simp)), ?_⟩
        rw [countEq_append_singleton]
        simp [pyEq_refl, countEq_eq_zero hPzero]
    · intro x hx
      rcases List.mem_append.mp hx with hx1 | hx2
      · obtain ⟨q, hq, hpq⟩ := hcover x hx1
        exact ⟨q, by rw [hres]; simp [hq], hpq⟩
      · have hxo : x = o := by simpa using hx2
        exact ⟨(o, 1), by rw [hres]; simp, by rw [hxo]; exact pyEq_refl o⟩
    · rw [hres]
      simp only [List.map_append, List.map_cons, List.map_nil]
      rw [List.pairwise_append]
      refine ⟨hdist, by simp, ?_⟩
      intro a ha b hb
      have hbo : b = o := by simpa using hb
      subst hbo
      obtain ⟨q, hq, hq1⟩ := List.mem_map.mp ha
      exact hq1 ▸ hall q hq
    · rw [hres]
      simp only [List.map_append, List.map_cons, List.map_nil]
      rw [List.pairwise_append]
      refine ⟨horder', by simp, ?_⟩
      intro a ha b hb
      have hbo : b = o := by simpa using hb
      obtain ⟨q, hq, hq1⟩ := List.mem_map.mp ha
      have hain : a ∈ P := hq1 ▸ (hmem q hq).1
      rw [hbo, firstIdx_append_keep hain,
        firstIdx_append_of_absent hPzero, firstIdx, if_pos (pyEq_refl o)]
      have := firstIdx_lt_length_of_present (v := a) ⟨a, hain, pyEq_refl a⟩
      omega

theorem tally_inv_fold : ∀ (obs P : List PyVal) (t : List (PyVal × Nat)),
    TallyInv P t → TallyInv (P ++ obs) (obs.foldl tallyAdd t) := by
  intro obs
  induction obs with
  | nil => intro P t h; simpa using h
  | cons o rest ih =>
    intro P t h
    have h1 := tallyAdd_inv (o := o) h
    have h2 := ih (P ++ [o]) (tallyAdd t o) h1
    simpa using h2

theorem tally_inv_self (obs : List PyVal) : TallyInv obs (tally obs) := by
  have h := tally_inv_fold obs [] [] ⟨by simp, by simp, by simp, by simp⟩
  simpa [tally] using h

theorem foldl_pickBest_some : ∀ (t : List (PyVal × Nat)) (p : PyVal × Nat),
    ∃ r, t.foldl pickBest (some p) = some r := by
  intro t
  induction t with
  | nil => exact fun p => ⟨p, rfl⟩
  | cons q rest ih =>
    intro p
    simp only [List.foldl_cons, pickBest]
    split <;> exact ih _

theorem foldl_pickBest_decomp : ∀ (t : List (PyVal × Nat)) (p r : PyVal × Nat),
    t.foldl pickBest (some p) = some r →
    (r = p ∧ ∀ q ∈ t, q.2 ≤ p.2)
    ∨ (∃ t1 t2, t = t1 ++ r :: t2 ∧ p.2 < r.2 ∧ (∀ q ∈ t1, q.2 < r.2) ∧ ∀ q ∈ t2, q.2 ≤ r.2) := by
  intro t
  induction t with
  | nil =>
    intro p r h
    left
    simp only [List.foldl_nil, Option.some_inj] at h
    exact ⟨h.symm, by simp⟩
  | cons q rest ih =>
    intro p r h
    simp only [List.foldl_cons, pickBest] at h
    by_cases hcmp : q.2 > p.2
    · rw [if_pos hcmp] at h
      rcases ih q r h with ⟨hrq, hall⟩ | ⟨t1, t2, heq, hlt, ht1, ht2⟩
      · right
        refine ⟨[], rest, by simp [hrq], ?_, by simp, ?_⟩
        · rw [hrq]; exact hcmp
        · intro q' hq'
          rw [hrq]
          exact hall q' hq'
      · right
        refine ⟨q :: t1, t2, by simp [heq], by omega, ?_, ht2⟩
        intro q' hq'
        rcases List.mem_cons.mp hq' with heq' | hin
        · rw [heq']; omega
        · exact ht1 q' hin
    · rw [if_neg hcmp] at h
      rcases ih p r h with ⟨hrp, hall⟩ | ⟨t1, t2, heq, hlt, ht1, ht2⟩
      · left
        refine ⟨hrp, ?_⟩
        intro q' hq'
        rcases List.mem_cons.mp hq' with heq' | hin
        · rw [heq']; omega
        · exact hall q' hin
      · right
        refine ⟨q :: t1, t2, by simp [heq], hlt, ?_, ht2⟩
        intro q' hq'
        rcases List.mem_cons.mp hq' with heq' | hin
        · rw [heq']; omega
        · exact ht1 q' hin

/-- The fold of `pickBest` over a nonempty list returns the first entry
holding the maximal count: everything before it is strictly smaller,
everything after it no larger. -/
theorem pickBest_first_max (t : List (PyVal × Nat)) (r : PyVal × Nat)
    (h : t.foldl pickBest Option.none = some r) :
    ∃ t1 t2, t = t1 ++ r :: t2 ∧ (∀ q ∈ t1, q.2 < r.2) ∧ ∀ q ∈ t2, q.2 ≤ r.2 := by
  match t with
  | [] => simp at h
  | p :: rest =>
    simp only [List.foldl_cons, pickBest] at h
    rcases foldl_pickBest_decomp rest p r h with ⟨hrp, hall⟩ | ⟨t1, t2, heq, hlt, ht1, ht2⟩
    · exact ⟨[], rest, by simp [hrp], by simp, fun q hq => hrp ▸ hall q hq⟩
    · refine ⟨p :: t1, t2, by simp [heq], ?_, ht2⟩
      intro q hq
      rcases List.mem_cons.mp hq with rfl | hin
      · omega
      · exact ht1 q hin

theorem tallyAdd_ne_nil (t : List (PyVal × Nat)) (o : PyVal) : tallyAdd t o ≠ [] := by
  rcases tallyAdd_cases t o with ⟨t1, p, t2, _, _, _, hres⟩ | ⟨_, hres⟩ <;> simp [hres]

theorem tally_ne_nil (obs : List PyVal) (h : obs ≠ []) : tally obs ≠ [] := by
  match obs with
  | [] => exact absurd rfl h
  | o :: rest =>
    have : ∀ (l : List PyVal) (t : List (PyVal × Nat)), t ≠ [] → l.foldl tallyAdd t ≠ [] := by
      intro l
      induction l with
      | nil => exact fun t ht => ht
      | cons x xs ih => exact fun t _ => ih (tallyAdd t x) (tallyAdd_ne_nil t x)
    exact this rest (tallyAdd [] o) (tallyAdd_ne_nil [] o)

/-- `most_common(1)` computes exactly the spec's winner: on a nonempty
observation list it returns a value of maximal count, first seen among the
tied. -/
theorem mostCommon1_spec (obs : List PyVal) (h : obs ≠ []) :
    ∃ v, mostCommon1 obs = some v ∧ IsFirstSeenMode obs v := by
  obtain ⟨hmem, hcover, hdist, horder⟩ := tally_inv_self obs
  have htne := tally_ne_nil obs h
  obtain ⟨r, hr⟩ : ∃ r, (tally obs).foldl pickBest Option.none = some r := by
    match hm : tally obs, htne with
    | t0 :: trest, _ =>
      simp only [List.foldl_cons, pickBest]
      exact foldl_pickBest_some trest t0
  obtain ⟨t1, t2, heq, ht1, ht2⟩ := pickBest_first_max _ r hr
  have hrmem : r ∈ tally obs := by rw [heq]; simp
  obtain ⟨hrin, hrcount⟩ := hmem r hrmem
  refine ⟨r.1, by simp [mostCommon1, hr], hrin, ?_, ?_⟩
  · intro w hw
    obtain ⟨p, hp, hpw⟩ := hcover w hw
    obtain ⟨hpin, hpcount⟩ := hmem p hp
    have hcw : countEq w obs = countEq p.1 obs :=
      countEq_congr (pyEq_symm hpw) obs
    have hple : p.2 ≤ r.2 := by
      rw [heq] at hp
      rcases List.mem_append.mp hp with h1 | h2
      · exact le_of_lt (ht1 p h1)
      · rcases List.mem_cons.mp h2 with rfl | h2
        · exact le_refl _
        · exact ht2 p h2
    rw [hcw, ← hpcount, ← hrcount]
    exact hple
  · intro w hw hcnt
    obtain ⟨p, hp, hpw⟩ := hcover w hw
    obtain ⟨hpin, hpcount⟩ := hmem p hp
    have hcw : countEq w obs = countEq p.1 obs :=
      countEq_congr (pyEq_symm hpw) obs
    have hfw : firstIdx w obs = firstIdx p.1 obs :=
      firstIdx_congr (pyEq_symm hpw) obs
    have hpr : p.2 = r.2 := by
      rw [hpcount, hrcount, ← hcw, ← hcnt]
    rw [hfw]
    rw [heq] at hp
    rcases List.mem_append.mp hp with h1 | h2
    · exact absurd hpr (by have := ht1 p h1; omega)
    · rcases List.mem_cons.mp h2 with rfl | h2
      · exact le_refl _
      · -- p comes after r in the counter, so r was first seen earlier
        have hkeys : ((tally obs).map Prod.fst).Pairwise
            (fun a b => firstIdx a obs < firstIdx b obs) := horder
        rw [heq] at hkeys
        simp only [List.map_append, List.map_cons] at hkeys
        have h1 := (List.pairwise_append.mp hkeys).2.1
        have h2' := (List.pairwise_cons.mp h1).1
        exact le_of_lt (h2' p.1 (List.mem_map_of_mem Prod.fst h2))

/-- A full-document attempt carrying only a `case_reference` value, as in
the spec's reconciliation examples (instantiated at a real schema field). -/
def caseRefAttempt (s : String) : PyVal := PyVal.dict [("case_reference", PyVal.str s)]

/-- The mapping the majority-vote reconciler builds when only
`case_reference` receives a value `v`: every other schema field is `None`. -/
def mvExpected (v : PyVal) : PyDict :=
  caseFields.map fun f => (f, if f = "case_reference" then v else PyVal.none)

/-- C1 counterexample: the claim fails twice on the code. First, its own
example key `"x"` is not a `Case` schema field, so the reconciled mapping
carries no `"x"` at all (the candidates' values are dropped). Second, for a
schema field the winning value is not always the most frequent normalized
observed value: a plain string value `"[1]"` (whose normalization is
itself) is decoded by the `json.loads` step into the list `[1]`. -/
theorem combineMV_counterexample :
    (combineFinalData [PyVal.dict [("x", PyVal.str "A")], PyVal.dict [("x", PyVal.str "A")],
        PyVal.dict [("x", PyVal.str "B")]] = .ok (caseFields.map fun f => (f, PyVal.none)))
    ∧ dget (caseFields.map fun f => (f, PyVal.none)) "x" = Option.none
    ∧ combineFinalData [caseRefAttempt "[1]"] = .ok (mvExpected (PyVal.list [PyVal.int 1]))
    ∧ normObs (PyVal.str "[1]") = PyVal.str "[1]"
    ∧ PyVal.list [PyVal.int 1] ≠ PyVal.str "[1]" :=
  ⟨rfl, rfl, rfl, rfl, by decide⟩

/-- C1 (amended): for every `Case` schema field with at least one non-null
observation, the reconciled value is the decode (`json.loads` on
JSON-looking strings, identity otherwise) of the most frequent normalized
observation, ties broken by candidate arrival order; in particular
candidates supplying `"A", "A", "B"` for `case_reference` reconcile to
`"A"`, and the tie `"A", "B"` reconciles to the first-seen `"A"`. -/
theorem combineMV_majority_first_seen_tiebreak :
    (∀ (attempts : List PyVal) (fd : PyDict) (field : String),
        combineFinalData attempts = .ok fd → field ∈ caseFields →
        obsList field (validAttempts attempts) ≠ [] →
        ∃ m w, IsFirstSeenMode (obsList field (validAttempts attempts)) m
          ∧ decodeFinal m = .ok w ∧ dget fd field = some w)
    ∧ combineFinalData [caseRefAttempt "A", caseRefAttempt "A", caseRefAttempt "B"]
        = .ok (mvExpected (PyVal.str "A"))
    ∧ combineFinalData [caseRefAttempt "A", caseRefAttempt "B"]
        = .ok (mvExpected (PyVal.str "A")) := by
  refine ⟨?_, rfl, rfl⟩
  intro attempts fd field hok hf hobs
  unfold combineFinalData at hok
  by_cases he : (validAttempts attempts).isEmpty
  · simp [he] at hok
  · rw [if_neg he] at hok
    have hnd : caseFields.Nodup := by decide
    obtain ⟨v, hfr, hget⟩ :=
      (mvFold_dget (validAttempts attempts) caseFields [] fd hnd hok).2 field hf
    rw [fieldResult] at hfr
    rw [if_neg (by simpa [List.isEmpty_iff] using hobs)] at hfr
    by_cases hh : (obsList field (validAttempts attempts)).all normHashable
    · rw [if_pos hh] at hfr
      obtain ⟨m, hmc, hmode⟩ := mostCommon1_spec _ hobs
      rw [hmc] at hfr
      exact ⟨m, v, hmode, hfr, hget⟩
    · rw [if_neg hh] at hfr
      cases hfr

/-- Witness for C1: the majority example, at the schema field
`case_reference`. -/
theorem combineMV_majority_first_seen_tiebreak_witness :
    ∃ m w,
      IsFirstSeenMode (obsList "case_reference"
        (validAttempts [caseRefAttempt "A", caseRefAttempt "A", caseRefAttempt "B"])) m
      ∧ decodeFinal m = .ok w
      ∧ dget (mvExpected (PyVal.str "A")) "case_reference" = some w :=
  combineMV_majority_first_seen_tiebreak.1
    [caseRefAttempt "A", caseRefAttempt "A", caseRefAttempt "B"]
    (mvExpected (PyVal.str "A")) "case_reference" rfl (by decide) (by decide)

/-! ## Score-to-degree mappings
(functions/case_prediction/mark_visual_similarity.py and
mark_aural_similarity.py, `_map_score_to_degree`) -/

/-- The qualitative similarity degrees (`SimilarityDegree` in
functions/models.py). -/
inductive SimilarityDegree where
  | identical
  | high_degree
  | medium_degree
  | low_degree
  | dissimilar
  deriving DecidableEq

/-- `_map_score_to_degree` of mark_visual_similarity.py: thresholds on the
0-100 `rapidfuzz` scale. -/
def mapVisualScoreToDegree (score : ℚ) : SimilarityDegree :=
  if score ≥ 95 then .identical
  else if score ≥ 80 then .high_degree
  else if score ≥ 65 then .medium_degree
  else if score ≥ 50 then .low_degree
  else .dissimilar

/-- `_map_score_to_degree` of mark_aural_similarity.py: thresholds on the
0.0-1.0 Jaro-Winkler scale. -/
def mapAuralScoreToDegree (score : ℚ) : SimilarityDegree :=
  if score ≥ 95 / 100 then .identical
  else if score ≥ 85 / 100 then .high_degree
  else if score ≥ 70 / 100 then .medium_degree
  else if score ≥ 55 / 100 then .low_degree
  else .dissimilar

/-- C6: both score-to-degree mappings are given by fixed, non-overlapping
bands with inclusive lower bounds (each degree holds exactly on its band,
so every score maps to exactly one degree), and at the boundary a visual
score of 95 (normalized 0.95) maps to `identical` while 94.99 maps to
`high_degree`; likewise 0.95 and 0.9499 on the aural scale. -/
theorem score_to_degree_bands :
    (∀ s : ℚ,
      (mapVisualScoreToDegree s = .identical ↔ 95 ≤ s)
      ∧ (mapVisualScoreToDegree s = .high_degree ↔ 80 ≤ s ∧ s < 95)
      ∧ (mapVisualScoreToDegree s = .medium_degree ↔ 65 ≤ s ∧ s < 80)
      ∧ (mapVisualScoreToDegree s = .low_degree ↔ 50 ≤ s ∧ s < 65)
      ∧ (mapVisualScoreToDegree s = .dissimilar ↔ s < 50))
    ∧ (∀ s : ℚ,
      (mapAuralScoreToDegree s = .identical ↔ 95 / 100 ≤ s)
      ∧ (mapAuralScoreToDegree s = .high_degree ↔ 85 / 100 ≤ s ∧ s < 95 / 100)
      ∧ (mapAuralScoreToDegree s = .medium_degree ↔ 70 / 100 ≤ s ∧ s < 85 / 100)
      ∧ (mapAuralScoreToDegree s = .low_degree ↔ 55 / 100 ≤ s ∧ s < 70 / 100)
      ∧ (mapAuralScoreToDegree s = .dissimilar ↔ s < 55 / 100))
    ∧ mapVisualScoreToDegree 95 = .identical
    ∧ mapVisualScoreToDegree (9499 / 100) = .high_degree
    ∧ mapAuralScoreToDegree (95 / 100) = .identical
    ∧ mapAuralScoreToDegree (9499 / 10000) = .high_degree := by
  refine ⟨?_, ?_, by norm_num [mapVisualScoreToDegree],
    by norm_num [mapVisualScoreToDegree], by norm_num [mapAuralScoreToDegree],
    by norm_num [mapAuralScoreToDegree]⟩
  · intro s
    unfold mapVisualScoreToDegree
    split_ifs <;> refine ⟨?_, ?_, ?_, ?_, ?_⟩ <;>
      constructor <;> intro hh <;> first | rfl | (try cases hh) <;> simp_all <;> linarith
  · intro s
    unfold mapAuralScoreToDegree
    split_ifs <;> refine ⟨?_, ?_, ?_, ?_, ?_⟩ <;>
      constructor <;> intro hh <;> first | rfl | (try cases hh) <;> simp_all <;> linarith

/-! ## Visual similarity
(functions/case_prediction/mark_visual_similarity.py,
`calculate_visual_similarity`)

`rapidfuzz.fuzz.ratio(a, b)` is the normalized indel similarity
`100 * (1 - dist_indel(a, b) / (len(a) + len(b)))` with
`dist_indel = len(a) + len(b) - 2 * lcs(a, b)`, i.e.
`200 * lcs(a, b) / (len(a) + len(b))`, and `100.0` when both strings are
empty. `str.lower()` is modelled on its ASCII action (per-character
lowercasing), which the claims' properties are insensitive to. -/

/-- Length of a longest common subsequence. -/
def lcs : List Char → List Char → Nat
  | [], _ => 0
  | _, [] => 0
  | a :: as, b :: bs =>
    if a = b then lcs as bs + 1
    else max (lcs (a :: as) bs) (lcs as (b :: bs))
termination_by a b => a.length + b.length

/-- `rapidfuzz.fuzz.ratio` on the 0-100 scale. -/
def ratioScore (a b : List Char) : ℚ :=
  if a.length + b.length = 0 then 100
  else 200 * (lcs a b : ℚ) / ((a.length : ℚ) + (b.length : ℚ))

/-- Per-character `str.lower()` (ASCII action). -/
def lowerChar (c : Char) : Char :=
  if 65 ≤ c.toNat ∧ c.toNat ≤ 90 then Char.ofNat (c.toNat + 32) else c

/-- `s.lower()`. -/
def pyLower (s : List Char) : List Char := s.map lowerChar

/-- `calculate_visual_similarity`: lowercase both marks, compute the
0-100 ratio, return the normalized 0-1 score with the mapped degree. -/
def calculate_visual_similarity (applicant_mark opponent_mark : List Char) :
    ℚ × SimilarityDegree :=
  let s100 := ratioScore (pyLower applicant_mark) (pyLower opponent_mark)
  (s100 / 100, mapVisualScoreToDegree s100)

theorem char_toNat_ofNat_lt (n : Nat) (h : n < 55296) : (Char.ofNat n).toNat = n := by
  have hv : Nat.isValidChar n := Or.inl h
  simp only [Char.ofNat, hv, dite_true, Char.ofNatAux, Char.toNat]
  simp [UInt32.toNat, BitVec.toNat_ofNatLt]

theorem lowerChar_idem (c : Char) : lowerChar (lowerChar c) = lowerChar c := by
  unfold lowerChar
  by_cases h : 65 ≤ c.toNat ∧ c.toNat ≤ 90
  · rw [if_pos h]
    have h32 : (Char.ofNat (c.toNat + 32)).toNat = c.toNat + 32 :=
      char_toNat_ofNat_lt _ (by omega)
    rw [if_neg (by rw [h32]; omega)]
  · rw [if_neg h, if_neg h]

theorem pyLower_idem (s : List Char) : pyLower (pyLower s) = pyLower s := by
  simp [pyLower, Function.comp, lowerChar_idem]

theorem lcs_comm (a b : List Char) : lcs a b = lcs b a := by
  induction a, b using lcs.induct with
  | case1 b => cases b <;> simp [lcs]
  | case2 a => cases a <;> simp [lcs]
  | case3 as b bs ih =>
    rw [lcs, if_pos rfl, lcs, if_pos rfl, ih]
  | case4 a as b bs hne ih2 ih1 =>
    rw [lcs, if_neg hne, lcs, if_neg (fun hh => hne hh.symm), ih2, ih1, Nat.max_comm]

theorem lcs_self (a : List Char) : lcs a a = a.length := by
  induction a with
  | nil => simp [lcs]
  | cons c rest ih => rw [lcs, if_pos rfl, ih]; rfl

theorem ratioScore_comm (a b : List Char) : ratioScore a b = ratioScore b a := by
  unfold ratioScore
  rw [lcs_comm]
  by_cases h : a.length + b.length = 0
  · rw [if_pos h, if_pos (by omega)]
  · rw [if_neg h, if_neg (by omega), add_comm ((a.length : ℚ)) _]

theorem ratioScore_self_eq_100 (a b : List Char) (h : a = b) : ratioScore a b = 100 := by
  subst h
  unfold ratioScore
  by_cases h0 : a.length + a.length = 0
  · rw [if_pos h0]
  · rw [if_neg h0, lcs_self]
    have hlen : (a.length : ℚ) ≠ 0 := by
      have : a.length ≠ 0 := by omega
      exact_mod_cast this
    field_simp
    ring

/-- C10: `calculate_visual_similarity` is symmetric and letter-case
insensitive — swapping the marks, or lowercasing either mark first, leaves
both the score and the degree unchanged — and two marks that differ only in
letter case score `1.0` and map to `identical`. -/
theorem calculate_visual_similarity_symm_case_insensitive
    (a b : List Char) :
    calculate_visual_similarity a b = calculate_visual_similarity b a
    ∧ calculate_visual_similarity (pyLower a) b = calculate_visual_similarity a b
    ∧ calculate_visual_similarity a (pyLower b) = calculate_visual_similarity a b
    ∧ (pyLower a = pyLower b →
        calculate_visual_similarity a b = (1, SimilarityDegree.identical)) := by
  refine ⟨?_, ?_, ?_, ?_⟩
  · unfold calculate_visual_similarity
    rw [ratioScore_comm]
  · unfold calculate_visual_similarity
    rw [pyLower_idem]
  · unfold calculate_visual_similarity
    rw [pyLower_idem]
  · intro h
    unfold calculate_visual_similarity
    rw [ratioScore_self_eq_100 _ _ h]
    norm_num [mapVisualScoreToDegree]

/-- Witness for C10: two marks differing only in case score `1.0` and map
to `identical`. -/
theorem calculate_visual_similarity_symm_case_insensitive_witness :
    calculate_visual_similarity ['A', 'c', 'M', 'e'] ['a', 'C', 'm', 'E']
      = (1, SimilarityDegree.identical) :=
  (calculate_visual_similarity_symm_case_insensitive
    ['A', 'c', 'M', 'e'] ['a', 'C', 'm', 'E']).2.2.2 (by decide)

/-! ## Retry wrapping of the single-shot extraction
(functions/case_in.py, `extract_structured_data`, lines 319-373)

The decorator is `@retry(stop=stop_after_attempt(3), wait=wait_exponential(
multiplier=1, min=4, max=10))`. It passes no `retry=` predicate, so
tenacity's default applies: retry on ANY raised exception. The function
body catches `(APIError, ValidationError, json.JSONDecodeError)` and
re-raises, so each attempt's outcome is exactly what the body raised or
returned; the wait strategy affects timing only. Each attempt is modelled
by an oracle `outcomes` giving the result of the n-th call; exhausting the
attempts surfaces the last error (tenacity wraps it in a `RetryError`). -/

/-- The error kinds the single-shot extraction body can raise. -/
inductive ExtractError where
  | apiError (msg : String)
  | validationError (msg : String)
  | jsonDecodeError (msg : String)
  deriving DecidableEq

/-- `stop_after_attempt` driver: `made` attempts already made, `n` still
allowed; returns the total number of calls and the final outcome. With no
`retry=` predicate, the decision to retry never inspects the error. -/
def retryRun {A : Type} (outcomes : Nat → Except ExtractError A) :
    Nat → Nat → Nat × Except ExtractError A
  | made, 0 => (made, outcomes made)
  | made, 1 => (made + 1, outcomes made)
  | made, n + 2 =>
    match outcomes made with
    | .ok a => (made + 1, .ok a)
    | .error _ => retryRun outcomes (made + 1) (n + 1)

/-- The retry-wrapped `extract_structured_data`: up to 3 attempts. -/
def extract_structured_data_retry {A : Type} (outcomes : Nat → Except ExtractError A) :
    Nat × Except ExtractError A :=
  retryRun outcomes 0 3

/-- The C4 scenario input: the first attempt fails with a schema validation
error, the second succeeds. -/
def validationThenOk : Nat → Except ExtractError Unit := fun n =>
  if n = 0 then .error (.validationError "schema violations") else .ok ()

/-- C4 counterexample: a first-attempt schema validation failure is NOT
surfaced to the caller — a second extraction attempt is made (the pair's
first component counts the calls) and its success is returned. -/
theorem retry_validation_error_is_retried :
    extract_structured_data_retry validationThenOk = (2, .ok ()) := rfl

/-- C4 (amended): the retry wrapper never inspects the error kind — any
first-attempt failure, schema validation failures included, triggers a
second attempt; at most 3 attempts are made, and when all 3 fail the last
error is surfaced. -/
theorem retry_uniform_in_error_kind :
    (∀ (f : Nat → Except ExtractError Unit) (e : ExtractError), f 0 = .error e →
        2 ≤ (extract_structured_data_retry f).1)
    ∧ (∀ (f : Nat → Except ExtractError Unit) (e0 e1 e2 : ExtractError),
        f 0 = .error e0 → f 1 = .error e1 → f 2 = .error e2 →
        extract_structured_data_retry f = (3, .error e2))
    ∧ (∀ f : Nat → Except ExtractError Unit, (extract_structured_data_retry f).1 ≤ 3) := by
  refine ⟨?_, ?_, ?_⟩
  · intro f e h0
    unfold extract_structured_data_retry retryRun
    rw [h0]
    simp only
    unfold retryRun
    rcases f 1 with e1 | a1
    · simp only
      unfold retryRun
      simp
    · simp
  · intro f e0 e1 e2 h0 h1 h2
    unfold extract_structured_data_retry retryRun
    rw [h0]
    simp only
    unfold retryRun
    rw [h1]
    simp only
    unfold retryRun
    rw [h2]
  · intro f
    unfold extract_structured_data_retry retryRun
    rcases f 0 with e0 | a0
    · simp only
      unfold retryRun
      rcases f 1 with e1 | a1
      · simp only
        unfold retryRun
        simp
      · simp
    · simp

/-- Witness for C4 (amended): the three conjuncts at the concrete
validation-error scenario. -/
theorem retry_uniform_in_error_kind_witness :
    2 ≤ (extract_structured_data_retry validationThenOk).1
    ∧ (extract_structured_data_retry validationThenOk).1 ≤ 3 :=
  ⟨retry_uniform_in_error_kind.1 validationThenOk
      (.validationError "schema violations") rfl,
   retry_uniform_in_error_kind.2.2 validationThenOk⟩

/-! ## Chunking

Text is modelled as `List Char`, with positions and slices in code points,
matching Python string indexing. `str.strip()` is modelled on the ASCII
whitespace set. -/

/-- ASCII whitespace as stripped by `str.strip()` and split on by
`str.split()`. -/
def isPySpace (c : Char) : Bool :=
  c = Char.ofNat 32 || c = Char.ofNat 9 || c = Char.ofNat 10 ||
  c = Char.ofNat 13 || c = Char.ofNat 11 || c = Char.ofNat 12

/-- `s.strip()`. -/
def pyStrip (s : List Char) : List Char :=
  ((s.dropWhile isPySpace).reverse.dropWhile isPySpace).reverse

/-- Text with every whitespace character deleted: the coarsest reading of
equality of texts "modulo whitespace trimming". -/
def removeWs (s : List Char) : List Char := s.filter (fun c => !isPySpace c)

/-- `full_text[a:b]` for `0 ≤ a, b`. -/
def slice (full : List Char) (a b : Nat) : List Char := (full.take b).drop a

/-- The consecutive slices `full[p0:p1], full[p1:p2], ...` walked by the
chunk loops: `sliceRun full a ps` slices from `a` through each position of
`ps` in turn. -/
def sliceRun (full : List Char) : Nat → List Nat → List (List Char)
  | _, [] => []
  | a, b :: rest => slice full a b :: sliceRun full b rest

/-! ### Vision-guided chunking (functions/case_in/chunk_pdf.py, `chunk_pdf`) -/

/-- `DocumentSection` of chunk_pdf.py: a heading with a 1-indexed page
range, as returned by the structural analysis (so the bounds may be
arbitrary integers). -/
structure DocSection where
  heading : String
  start_page : Int
  end_page : Int
  deriving DecidableEq

/-- A vision-guided chunk (text plus its metadata dict). -/
structure VChunk where
  text : List Char
  case_reference : String
  section_label : String
  pages : List Int
  chunk_sequence : Nat
  chunk_type : String
  deriving DecidableEq

/-- Python list indexing `xs[i]`: a negative index wraps once from the
end; anything further out raises `IndexError`. -/
def pyIndex {α : Type} (xs : List α) (i : Int) : Option α :=
  if 0 ≤ i then xs.get? i.toNat
  else if 0 ≤ i + xs.length then xs.get? (i + xs.length).toNat
  else Option.none

/-- `list(range(a, b + 1))`. -/
def intRange (a b : Int) : List Int :=
  if a > b then [] else (List.range (b - a + 1).toNat).map fun (k : Nat) => a + (k : Int)

/-- `case_ref.replace('/', '-')`. -/
def replaceSlash (s : String) : String :=
  String.mk (s.data.map fun c => if c = '/' then '-' else c)

/-- The body of chunk_pdf's section loop for the section at enumerate
index `i`: skip when `start_page > len(pages)`, `end_page > len(pages)` or
`start_page > end_page`; otherwise concatenate `pages[page_num - 1]` (with
Python indexing, `"\n\n"`-separated, skipping empty page texts) over the
stated range, drop the chunk when the stripped text is empty, and tag the
chunk with the pre-filter index `i` as `chunk_sequence`. -/
def sectionChunk (pages : List (List Char)) (caseRef : String) (i : Nat)
    (sec : DocSection) : Except String (Option VChunk) :=
  if sec.start_page > (pages.length : Int) ∨ sec.end_page > (pages.length : Int)
      ∨ sec.start_page > sec.end_page then
    .ok Option.none
  else
    ((intRange sec.start_page sec.end_page).mapM fun pn =>
        match pyIndex pages (pn - 1) with
        | some t => Except.ok t
        | Option.none => Except.error "IndexError: list index out of range") >>= fun texts =>
      if (pyStrip (texts.foldl
            (fun acc t => if t.isEmpty then acc
              else acc ++ t ++ [Char.ofNat 10, Char.ofNat 10]) [])).isEmpty then
        pure Option.none
      else pure (some
        { text := pyStrip (texts.foldl
            (fun acc t => if t.isEmpty then acc
              else acc ++ t ++ [Char.ofNat 10, Char.ofNat 10]) [])
          case_reference := replaceSlash caseRef
          section_label := sec.heading
          pages := intRange sec.start_page sec.end_page
          chunk_sequence := i
          chunk_type := "vision_guided_section" })

/-- `chunk_pdf` (given the already-extracted case reference, page texts and
the structural analysis's sections): collect the chunks the section loop
produces. -/
def chunk_pdf (caseRef : String) (pages : List (List Char))
    (sections : List DocSection) : Except String (List VChunk) :=
  sections.enum.foldlM
    (fun acc p => do
      match ← sectionChunk pages caseRef p.1 p.2 with
      | some c => pure (acc ++ [c])
      | Option.none => pure acc) []

/-! ### Heading-aware chunking (functions/case_in.py,
`create_heading_aware_chunks`, lines 434-549)

The heading catalog is a fixed list of regular expressions searched
case-insensitively on each stripped line; the scan is parameterized by the
line predicate `matches` (the regex engine is library code), and
`decisionPattern` instantiates it with the catalog entry `r"Decision"`,
whose `re.search(..., re.IGNORECASE)` on a line is case-insensitive
literal containment. -/

/-- A section marker: the stripped heading line, its character offset in
the accumulated full text, and its 1-indexed page. -/
structure Marker where
  heading : List Char
  position : Nat
  page : Int
  deriving DecidableEq

/-- A heading-based chunk. -/
structure HChunk where
  text : List Char
  case_reference : String
  section_label : String
  page : Int
  chunk_sequence : Nat
  chunk_type : String
  deriving DecidableEq

/-- A fallback word-window chunk. -/
structure SChunk where
  text : List Char
  case_reference : String
  chunk_sequence : Nat
  chunk_type : String
  deriving DecidableEq

/-- `page_text.split('\n')`. -/
def splitLines : List Char → List (List Char)
  | [] => [[]]
  | c :: rest =>
    if c = Char.ofNat 10 then [] :: splitLines rest
    else
      match splitLines rest with
      | l :: ls => (c :: l) :: ls
      | [] => [[c]]

/-- `len('\n'.join(lines))`. -/
def joinLen : List (List Char) → Nat
  | [] => 0
  | [l] => l.length
  | l :: rest => l.length + 1 + joinLen rest

/-- The line loop of the scan for one page: line `i` (with `sum` the total
length of the previous lines) is stripped and tested; a match records a
marker at `current_position + len('\n'.join(lines[:line_num]))`. -/
def lineMarkers (pred : List Char → Bool) (base : Nat) (pageNo : Int) :
    Nat → Nat → List (List Char) → List Marker
  | _, _, [] => []
  | i, sum, line :: rest =>
    let pos := base + sum + (if i = 0 then 0 else i - 1)
    (if pred (pyStrip line) then [⟨pyStrip line, pos, pageNo⟩] else [])
      ++ lineMarkers pred base pageNo (i + 1) (sum + line.length) rest

/-- The page loop of the scan: empty page texts are skipped entirely;
otherwise the page's lines are scanned for headings, the page text plus a
newline is appended to the full text, and `current_position` advances by
`len(page_text) + 1`. -/
def scanPages (pred : List Char → Bool) :
    Nat → Nat → List (List Char) → List Char × List Marker
  | _, _, [] => ([], [])
  | pageIdx, curPos, pt :: rest =>
    if pt.isEmpty then scanPages pred (pageIdx + 1) curPos rest
    else
      let ms := lineMarkers pred curPos ((pageIdx : Int) + 1) 0 0 (splitLines pt)
      let (ft, ms2) := scanPages pred (pageIdx + 1) (curPos + pt.length + 1) rest
      (pt ++ Char.ofNat 10 :: ft, ms ++ ms2)

/-- The scan of the whole document (page index and position start at 0). -/
def headingScan (pred : List Char → Bool) (pages : List (List Char)) :
    List Char × List Marker :=
  scanPages pred 0 0 pages

/-- Stable insertion of a marker by position (after every marker whose
position is not greater). -/
def insertMarker (m : Marker) : List Marker → List Marker
  | [] => [m]
  | x :: xs => if x.position < m.position then x :: insertMarker m xs else m :: x :: xs

/-- `section_markers.sort(key=lambda x: x["position"])`: Python's sort is
stable, modelled by stable insertion sort. -/
def sortMarkers (ms : List Marker) : List Marker :=
  ms.foldr insertMarker []

/-- The chunk loop over consecutive sorted markers: each span is sliced
and stripped; empty spans are dropped; `chunk_sequence` is
`len(chunks)` at append time, i.e. assigned post-filtering. -/
def chunkLoop (caseRef : String) (full : List Char) :
    Marker → List Marker → List HChunk → List HChunk
  | _, [], acc => acc
  | m, m2 :: rest, acc =>
    let st := pyStrip (slice full m.position m2.position)
    if st.isEmpty then chunkLoop caseRef full m2 rest acc
    else chunkLoop caseRef full m2 rest
      (acc ++ [⟨st, caseRef, String.mk m.heading, m.page, acc.length, "section"⟩])

/-- The `END_OF_DOCUMENT` sentinel marker. -/
def endMarker (full : List Char) : Marker := ⟨"END_OF_DOCUMENT".data, full.length, -1⟩

/-- `word` prefix of a string up to the next whitespace, with the rest. -/
def takeWord : List Char → List Char × List Char
  | [] => ([], [])
  | c :: rest =>
    if isPySpace c then ([], c :: rest)
    else
      let (w, r) := takeWord rest
      (c :: w, r)

theorem takeWord_rest_length : ∀ s : List Char, (takeWord s).2.length ≤ s.length := by
  intro s
  induction s with
  | nil => simp [takeWord]
  | cons c rest ih =>
    by_cases h : isPySpace c = true
    · simp [takeWord, h]
    · simp only [takeWord, h, Bool.false_eq_true, if_false, List.length_cons]
      omega

/-- `full_text.split()`: whitespace-separated words, no empties. -/
def splitWhitespace : List Char → List (List Char)
  | [] => []
  | c :: rest =>
    if isPySpace c then splitWhitespace rest
    else
      let p := takeWord rest
      (c :: p.1) :: splitWhitespace p.2
termination_by s => s.length
decreasing_by
  · simp only [List.length_cons]; omega
  · have := takeWord_rest_length rest2
    simp only [List.length_cons]
    omega

/-- `" ".join(words)`. -/
def joinWords : List (List Char) → List Char
  | [] => []
  | [w] => w
  | w :: rest => w ++ Char.ofNat 32 :: joinWords rest

/-- The window loop of `create_simple_chunks`: take `chunk_size` words,
advance by `chunk_size - overlap` (`step`), `chunk_sequence` is
`len(chunks)` at append time. Fuel bounds the iterations (the word count
suffices for any positive step). -/
def simpleChunkLoop (caseRef : String) (chunk_size step : Nat) :
    Nat → List (List Char) → List SChunk → List SChunk
  | 0, _, acc => acc
  | _, [], acc => acc
  | fuel + 1, ws, acc =>
    simpleChunkLoop caseRef chunk_size step fuel (ws.drop step)
      (acc ++ [⟨joinWords (ws.take chunk_size), caseRef, acc.length, "simple"⟩])

/-- `create_simple_chunks(full_text, case_ref, chunk_size, overlap)`
(functions/case_in.py, lines 551-581). A zero step (`overlap ≥
chunk_size`) makes Python's `range` raise; callers always pass 500/50. -/
def create_simple_chunks (full : List Char) (caseRef : String)
    (chunk_size overlap : Nat) : List SChunk :=
  if (splitWhitespace full).isEmpty then []
  else simpleChunkLoop caseRef chunk_size (chunk_size - overlap)
    (splitWhitespace full).length (splitWhitespace full) []

/-- `create_heading_aware_chunks(pdf_path, case_ref)` given the page texts
and a heading predicate: scan for markers, fall back to simple chunking
(500/50) when none are found, otherwise sort the markers, append the
end-of-document sentinel and cut the spans between consecutive markers. -/
def create_heading_aware_chunks (pred : List Char → Bool) (caseRef : String)
    (pages : List (List Char)) : List HChunk ⊕ List SChunk :=
  let (full, ms) := headingScan pred pages
  if ms.isEmpty then .inr (create_simple_chunks full caseRef 500 50)
  else
    match sortMarkers ms with
    | [] => .inl []
    | m0 :: mrest => .inl (chunkLoop caseRef full m0 (mrest ++ [endMarker full]) [])

/-- Case-insensitive containment of `pat` in `s` (both lowercased):
`re.search` of a literal pattern with `re.IGNORECASE`. -/
def containsSub (s pat : List Char) : Bool :=
  match s with
  | [] => pat.isEmpty
  | _ :: rest => pat.isPrefixOf s || containsSub rest pat

/-- The heading-catalog entry `r"Decision"` of `COMMON_HEADINGS` as a line
predicate. -/
def decisionPattern (line : List Char) : Bool :=
  containsSub (line.map lowerChar) ("decision".data)

theorem mapM_ok {α β : Type} (l : List α) (f : α → Except String β) (g : α → β)
    (h : ∀ x ∈ l, f x = .ok (g x)) : l.mapM f = .ok (l.map g) := by
  induction l with
  | nil => rfl
  | cons x xs ih =>
    rw [List.mapM_cons, h x (by simp)]
    simp only [bind, Except.bind, List.map_cons]
    rw [ih fun y hy => h y (by simp [hy])]
    rfl

theorem foldl_congr_mem {α β : Type} (l : List α) (f g : β → α → β) (b : β)
    (h : ∀ x ∈ l, ∀ acc, f acc x = g acc x) : l.foldl f b = l.foldl g b := by
  induction l generalizing b with
  | nil => rfl
  | cons x xs ih =>
    simp only [List.foldl_cons]
    rw [h x (by simp), ih _ fun y hy acc => h y (by simp [hy]) acc]

theorem intRange_mem {a b pn : Int} (h : pn ∈ intRange a b) : a ≤ pn ∧ pn ≤ b := by
  unfold intRange at h
  split at h
  · simp at h
  · rename_i hab
    obtain ⟨k, hk, hpk⟩ := List.mem_map.mp h
    have hk3 : k < (b - a + 1).toNat := List.mem_range.mp hk
    have hba : (0 : Int) ≤ b - a + 1 := by omega
    have hk2 : (k : Int) < ((b - a + 1).toNat : Int) := by exact_mod_cast hk3
    rw [Int.toNat_of_nonneg hba] at hk2
    omega

/-- The concatenation that would arise from reading exactly the pages of
the stated range (the reference reading for the safety statement). -/
def inRangeConcat (pages : List (List Char)) (a b : Int) : List Char :=
  (intRange a b).foldl
    (fun acc pn =>
      match pages.get? (pn - 1).toNat with
      | some t => if t.isEmpty then acc else acc ++ t ++ [Char.ofNat 10, Char.ofNat 10]
      | Option.none => acc) []

/-- C7 counterexample: a section whose `start_page` is `0` — below the
1-indexed bounds — is NOT skipped: it passes the validity test and the
negative Python index `pages[-1]` reads the LAST page, outside the stated
range, so the produced chunk starts with page 2's text. -/
theorem chunk_pdf_start_page_zero_not_skipped :
    chunk_pdf "C" [['P', '1'], ['P', '2']] [⟨"S", 0, 1⟩]
      = .ok [⟨['P', '2', Char.ofNat 10, Char.ofNat 10, 'P', '1'], "C", "S", [0, 1], 0,
          "vision_guided_section"⟩]
    ∧ pyIndex [['P', '1'], ['P', '2']] (0 - 1) = some ['P', '2'] :=
  ⟨rfl, rfl⟩

/-- C7 (amended): the section loop skips exactly the sections with
`start_page > len(pages)`, `end_page > len(pages)` or
`start_page > end_page`; for a section inside the 1-indexed bounds
(`1 ≤ start_page`) the chunk text is built from exactly the pages of the
stated range. A `start_page` below 1 is not checked: Python's negative
indexing then reads pages from the end of the document. -/
theorem sectionChunk_skip_and_in_range_reads :
    (∀ (pages : List (List Char)) (caseRef : String) (i : Nat) (sec : DocSection),
        (sec.start_page > (pages.length : Int) ∨ sec.end_page > (pages.length : Int)
          ∨ sec.start_page > sec.end_page) →
        sectionChunk pages caseRef i sec = .ok Option.none)
    ∧ (∀ (pages : List (List Char)) (caseRef : String) (i : Nat) (sec : DocSection)
        (c : VChunk),
        1 ≤ sec.start_page → sec.end_page ≤ (pages.length : Int) →
        sec.start_page ≤ sec.end_page →
        sectionChunk pages caseRef i sec = .ok (some c) →
        c.text = pyStrip (inRangeConcat pages sec.start_page sec.end_page)
          ∧ c.pages = intRange sec.start_page sec.end_page) := by
  constructor
  · intro pages caseRef i sec h
    unfold sectionChunk
    rw [if_pos h]
  · intro pages caseRef i sec c h1 h2 h3 hok
    unfold sectionChunk at hok
    rw [if_neg (by omega)] at hok
    have hread : ∀ pn ∈ intRange sec.start_page sec.end_page,
        (fun pn =>
          match pyIndex pages (pn - 1) with
          | some t => Except.ok t
          | Option.none => Except.error "IndexError: list index out of range") pn
        = Except.ok ((pages.get? (pn - 1).toNat).getD []) := by
      intro pn hpn
      obtain ⟨ha, hb⟩ := intRange_mem hpn
      have hge : (0 : Int) ≤ pn - 1 := by omega
      have hlt : (pn - 1).toNat < pages.length := by omega
      have ht : pages.get? (pn - 1).toNat = some (pages.get ⟨(pn - 1).toNat, hlt⟩) :=
        List.get?_eq_get hlt
      simp only [pyIndex, if_pos hge, ht]
      simp [ht]
    rw [mapM_ok _ _ _ hread] at hok
    simp only [bind, Except.bind] at hok
    have hfold :
        ((intRange sec.start_page sec.end_page).map
            fun pn => (pages.get? (pn - 1).toNat).getD []).foldl
          (fun acc t => if t.isEmpty then acc
            else acc ++ t ++ [Char.ofNat 10, Char.ofNat 10]) []
        = inRangeConcat pages sec.start_page sec.end_page := by
      rw [List.foldl_map]
      unfold inRangeConcat
      refine foldl_congr_mem _ _ _ _ ?_
      intro pn hpn acc
      rcases hg : pages.get? (pn - 1).toNat with _ | t
      · simp [hg]
      · simp [hg]
    rw [hfold] at hok
    split at hok
    · cases hok
    · cases hok
      exact ⟨rfl, rfl⟩

/-- Witness for C7: the skip conjunct at an out-of-bounds section, and the
in-range conjunct at a one-page document. -/
theorem sectionChunk_skip_and_in_range_reads_witness :
    sectionChunk [['A']] "C" 0 ⟨"S", 3, 1⟩ = .ok Option.none
    ∧ (⟨['A'], "C", "S", [1], 0, "vision_guided_section"⟩ : VChunk).text
        = pyStrip (inRangeConcat [['A']] 1 1) :=
  ⟨sectionChunk_skip_and_in_range_reads.1 [['A']] "C" 0 ⟨"S", 3, 1⟩ (by decide),
   (sectionChunk_skip_and_in_range_reads.2 [['A']] "C" 0 ⟨"S", 1, 1⟩
      ⟨['A'], "C", "S", [1], 0, "vision_guided_section"⟩
      (by decide) (by decide) (by decide) rfl).1⟩

theorem chunkLoop_seq (caseRef : String) (full : List Char) :
    ∀ (ms : List Marker) (m : Marker) (acc : List HChunk),
      acc.map (·.chunk_sequence) = List.range acc.length →
      (chunkLoop caseRef full m ms acc).map (·.chunk_sequence)
        = List.range (chunkLoop caseRef full m ms acc).length := by
  intro ms
  induction ms with
  | nil => intro m acc h; simpa [chunkLoop] using h
  | cons m2 rest ih =>
    intro m acc h
    rw [chunkLoop]
    split
    · exact ih m2 acc h
    · refine ih m2 _ ?_
      simp only [List.map_append, List.length_append, List.map_cons, List.map_nil,
        List.length_cons, List.length_nil]
      rw [h, Nat.add_zero, ← List.range_succ]

theorem simpleChunkLoop_seq (caseRef : String) (chunk_size step : Nat) :
    ∀ (fuel : Nat) (ws : List (List Char)) (acc : List SChunk),
      acc.map (·.chunk_sequence) = List.range acc.length →
      (simpleChunkLoop caseRef chunk_size step fuel ws acc).map (·.chunk_sequence)
        = List.range (simpleChunkLoop caseRef chunk_size step fuel ws acc).length := by
  intro fuel
  induction fuel with
  | zero => intro ws acc h; simpa [simpleChunkLoop] using h
  | succ n ih =>
    intro ws acc h
    match ws with
    | [] => simpa [simpleChunkLoop] using h
    | w :: ws' =>
      rw [simpleChunkLoop]
      · refine ih _ _ ?_
        simp only [List.map_append, List.length_append, List.map_cons, List.map_nil,
          List.length_cons, List.length_nil]
        rw [h, Nat.add_zero, ← List.range_succ]
      · simp

theorem sectionChunk_seq (pages : List (List Char)) (caseRef : String) (i : Nat)
    (sec : DocSection) (c : VChunk)
    (h : sectionChunk pages caseRef i sec = .ok (some c)) : c.chunk_sequence = i := by
  unfold sectionChunk at h
  split at h
  · cases h
  · rcases hm : (intRange sec.start_page sec.end_page).mapM
        (fun pn =>
          match pyIndex pages (pn - 1) with
          | some t => Except.ok t
          | Option.none =>
              Except.error "IndexError: list index out of range") with e | texts
    · rw [hm] at h
      simp [bind, Except.bind] at h
    · rw [hm] at h
      simp only [bind, Except.bind] at h
      split at h
      · cases h
      · cases h
        rfl

/-- C8 counterexample: in the vision-guided strategy the sequence number is
the pre-filter section index. A first section spanning a whitespace-only
page is dropped, yet the surviving chunk carries `chunk_sequence = 1`:
sequences are not contiguous from zero. -/
theorem chunk_pdf_sequence_gap :
    chunk_pdf "C" [[' '], ['B', 'o', 'd', 'y']] [⟨"A", 1, 1⟩, ⟨"B", 2, 2⟩]
      = .ok [⟨['B', 'o', 'd', 'y'], "C", "B", [2], 1, "vision_guided_section"⟩]
    ∧ ([⟨['B', 'o', 'd', 'y'], "C", "B", [2], 1, "vision_guided_section"⟩] :
          List VChunk).map (·.chunk_sequence) ≠ List.range 1 :=
  ⟨rfl, by decide⟩

/-- C8 (amended): in the heading-aware and word-window strategies,
whitespace-only spans are dropped and `chunk_sequence` is assigned after
that filtering (`len(chunks)` at append time), so sequences are contiguous
from zero; the vision-guided strategy instead tags each chunk with its
section's pre-filter `enumerate` index, so a skipped section leaves a gap. -/
theorem chunk_sequence_contiguity :
    (∀ (caseRef : String) (full : List Char) (ms : List Marker) (m : Marker),
        (chunkLoop caseRef full m ms []).map (·.chunk_sequence)
          = List.range (chunkLoop caseRef full m ms []).length)
    ∧ (∀ (full : List Char) (caseRef : String) (chunk_size overlap : Nat),
        (create_simple_chunks full caseRef chunk_size overlap).map (·.chunk_sequence)
          = List.range (create_simple_chunks full caseRef chunk_size overlap).length)
    ∧ (∀ (pages : List (List Char)) (caseRef : String) (i : Nat) (sec : DocSection)
        (c : VChunk), sectionChunk pages caseRef i sec = .ok (some c) →
        c.chunk_sequence = i) := by
  refine ⟨fun caseRef full ms m => chunkLoop_seq caseRef full ms m [] rfl, ?_,
    fun pages caseRef i sec c h => sectionChunk_seq pages caseRef i sec c h⟩
  intro full caseRef chunk_size overlap
  unfold create_simple_chunks
  split
  · rfl
  · exact simpleChunkLoop_seq caseRef chunk_size (chunk_size - overlap) _ _ [] rfl

/-- Witness for C8: the vision-guided conjunct applied at a concrete
in-bounds section. -/
theorem chunk_sequence_contiguity_witness :
    (⟨['A'], "C", "S", [1], 7, "vision_guided_section"⟩ : VChunk).chunk_sequence = 7 :=
  chunk_sequence_contiguity.2.2 [['A']] "C" 7 ⟨"S", 1, 1⟩
    ⟨['A'], "C", "S", [1], 7, "vision_guided_section"⟩ rfl

/-! ### Coverage of the heading-aware chunking (C3) -/

theorem slice_self (full : List Char) (a : Nat) : slice full a a = [] := by
  apply List.drop_eq_nil_of_le
  simpa using Nat.min_le_left a full.length

theorem slice_append_slice (full : List Char) {a b c : Nat}
    (hab : a ≤ b) (hbc : b ≤ c) (hb : b ≤ full.length) :
    slice full a b ++ slice full b c = slice full a c := by
  unfold slice
  have h1 : full.take c = full.take b ++ (full.take c).drop b := by
    conv_lhs => rw [← List.take_append_drop b (full.take c)]
    rw [List.take_take, Nat.min_eq_left hbc]
  conv_rhs => rw [h1]
  rw [List.drop_append_of_le_length]
  rw [List.length_take, Nat.min_eq_left hb]
  exact hab

theorem sliceRun_join (full : List Char) :
    ∀ (ps : List Nat) (a : Nat), a ≤ full.length → (∀ p ∈ ps, p ≤ full.length) →
    List.Pairwise (· ≤ ·) (a :: ps) →
    (sliceRun full a ps).flatten = slice full a (ps.getLastD a) ∧ a ≤ ps.getLastD a := by
  intro ps
  induction ps with
  | nil =>
    intro a ha _hp _hs
    simpa [sliceRun, slice_self] using le_refl a
  | cons b rest ih =>
    intro a ha hp hs
    have hab : a ≤ b := (List.pairwise_cons.mp hs).1 b (by simp)
    have hb : b ≤ full.length := hp b (by simp)
    have hrest : ∀ p ∈ rest, p ≤ full.length := fun p hpr => hp p (by simp [hpr])
    have hs' : List.Pairwise (· ≤ ·) (b :: rest) := (List.pairwise_cons.mp hs).2
    obtain ⟨hjoin, hle⟩ := ih b hb hrest hs'
    constructor
    · rw [sliceRun, List.flatten_cons, hjoin, List.getLastD_cons]
      exact slice_append_slice full hab hle hb
    · rw [List.getLastD_cons]
      exact le_trans hab hle

theorem insertMarker_mem (m : Marker) (l : List Marker) (x : Marker) :
    x ∈ insertMarker m l ↔ x = m ∨ x ∈ l := by
  induction l with
  | nil => simp [insertMarker]
  | cons y ys ih =>
    by_cases h : y.position < m.position
    · rw [insertMarker, if_pos h]
      simp only [List.mem_cons, ih]
      tauto
    · rw [insertMarker, if_neg h]
      simp only [List.mem_cons]

theorem insertMarker_sorted (m : Marker) (l : List Marker)
    (h : List.Pairwise (fun a b => a.position ≤ b.position) l) :
    List.Pairwise (fun a b => a.position ≤ b.position) (insertMarker m l) := by
  induction l with
  | nil => simp [insertMarker]
  | cons y ys ih =>
    obtain ⟨hy, hys⟩ := List.pairwise_cons.mp h
    by_cases hlt : y.position < m.position
    · rw [insertMarker, if_pos hlt]
      refine List.pairwise_cons.mpr ⟨?_, ih hys⟩
      intro z hz
      rcases (insertMarker_mem m ys z).mp hz with hzm | hzys
      · rw [hzm]; exact le_of_lt hlt
      · exact hy z hzys
    · rw [insertMarker, if_neg hlt]
      refine List.pairwise_cons.mpr ⟨?_, h⟩
      intro z hz
      rcases List.mem_cons.mp hz with hzy | hzys
      · rw [hzy]; omega
      · exact le_trans (by omega) (hy z hzys)

theorem insertMarker_ne_nil (m : Marker) (l : List Marker) : insertMarker m l ≠ [] := by
  cases l with
  | nil => simp [insertMarker]
  | cons y ys =>
    rw [insertMarker]
    split <;> simp

theorem sortMarkers_mem (ms : List Marker) (x : Marker) :
    x ∈ sortMarkers ms ↔ x ∈ ms := by
  induction ms with
  | nil => simp [sortMarkers]
  | cons y ys ih =>
    rw [sortMarkers, List.foldr_cons]
    rw [insertMarker_mem]
    rw [show List.foldr insertMarker [] ys = sortMarkers ys from rfl, ih]
    exact (List.mem_cons).symm

theorem sortMarkers_sorted (ms : List Marker) :
    List.Pairwise (fun a b => a.position ≤ b.position) (sortMarkers ms) := by
  induction ms with
  | nil => simp [sortMarkers]
  | cons y ys ih => exact insertMarker_sorted y _ ih

theorem sortMarkers_ne_nil (ms : List Marker) (h : ms ≠ []) : sortMarkers ms ≠ [] := by
  cases ms with
  | nil => exact absurd rfl h
  | cons y ys => exact insertMarker_ne_nil y _

theorem splitLines_ne_nil (t : List Char) : splitLines t ≠ [] := by
  cases t with
  | nil => simp [splitLines]
  | cons c rest =>
    rw [splitLines]
    split
    · simp
    · split <;> simp

theorem joinLen_splitLines (t : List Char) : joinLen (splitLines t) = t.length := by
  induction t with
  | nil => rfl
  | cons c rest ih =>
    rcases hs : splitLines rest with _ | ⟨l, ls⟩
    · exact absurd hs (splitLines_ne_nil rest)
    rw [hs] at ih
    rw [splitLines]
    by_cases h : c = Char.ofNat 10
    · rw [if_pos h, hs]
      cases ls with
      | nil =>
        simp only [joinLen, List.length_cons, List.length_nil] at ih ⊢
        omega
      | cons l2 ls2 =>
        simp only [joinLen, List.length_cons, List.length_nil] at ih ⊢
        omega
    · rw [if_neg h, hs]
      cases ls with
      | nil =>
        simp only [joinLen, List.length_cons, List.length_nil] at ih ⊢
        omega
      | cons l2 ls2 =>
        simp only [joinLen, List.length_cons, List.length_nil] at ih ⊢
        omega

theorem lineMarkers_bound (pred : List Char → Bool) (base : Nat) (pg : Int) :
    ∀ (ls : List (List Char)) (i sum : Nat), ∀ m ∈ lineMarkers pred base pg i sum ls,
      m.position ≤ base + sum + (if i = 0 then 0 else i - 1) + joinLen ls := by
  intro ls
  induction ls with
  | nil => intro i sum m hm; simp [lineMarkers] at hm
  | cons line rest ih =>
    intro i sum m hm
    rw [lineMarkers] at hm
    simp only [List.mem_append] at hm
    rcases hm with hm | hm
    · by_cases hp : pred (pyStrip line) = true
      · rw [if_pos hp, List.mem_singleton] at hm
        have hpos : m.position = base + sum + (if i = 0 then 0 else i - 1) := by rw [hm]
        rw [hpos]
        omega
      · rw [if_neg hp] at hm
        simp at hm
    · have := ih (i + 1) (sum + line.length) m hm
      cases rest with
      | nil => simp [lineMarkers] at hm
      | cons l2 r2 =>
        rw [joinLen]
        · split at this <;> split <;> omega
        · simp

theorem scanPages_bound (pred : List Char → Bool) :
    ∀ (pts : List (List Char)) (pi cp : Nat), ∀ m ∈ (scanPages pred pi cp pts).2,
      m.position ≤ cp + (scanPages pred pi cp pts).1.length := by
  intro pts
  induction pts with
  | nil => intro pi cp m hm; simp [scanPages] at hm
  | cons pt rest ih =>
    intro pi cp m hm
    rw [scanPages] at hm ⊢
    by_cases he : pt.isEmpty
    · rw [if_pos he] at hm ⊢
      exact ih _ _ m hm
    · rw [if_neg he] at hm ⊢
      simp only [List.mem_append] at hm
      rcases hm with hm | hm
      · have := lineMarkers_bound pred cp ((pi : Int) + 1) (splitLines pt) 0 0 m hm
        rw [joinLen_splitLines] at this
        simp at this
        simp only [List.length_append, List.length_cons]
        omega
      · have := ih (pi + 1) (cp + pt.length + 1) m hm
        simp only [List.length_append, List.length_cons]
        omega

theorem chunkLoop_texts (caseRef : String) (full : List Char) :
    ∀ (ms : List Marker) (m : Marker) (acc : List HChunk),
    (chunkLoop caseRef full m ms acc).map (fun c => c.text)
      = acc.map (fun c => c.text)
        ++ ((sliceRun full m.position (ms.map (fun x => x.position))).map pyStrip).filter
             (fun t => !t.isEmpty) := by
  intro ms
  induction ms with
  | nil => intro m acc; simp [chunkLoop, sliceRun]
  | cons m2 rest ih =>
    intro m acc
    rw [chunkLoop]
    simp only [List.map_cons, sliceRun, List.filter_cons]
    by_cases h : (pyStrip (slice full m.position m2.position)).isEmpty
    · rw [if_pos h, ih]
      simp [h]
    · rw [if_neg h, ih]
      simp [h]

/-- C3 is refuted on a one-page document "Intro\nDecision": the single
detected heading is "Decision" at offset 5, the produced chunks start at
that first marker, and the text "Intro" preceding the first heading is
absent from the concatenated chunk texts even after deleting every
whitespace character. -/
theorem heading_chunks_drop_prefix :
    create_heading_aware_chunks decisionPattern "C" ["Intro\nDecision".data]
      = .inl [⟨"Decision".data, "C", "Decision", 1, 0, "section"⟩]
    ∧ (headingScan decisionPattern ["Intro\nDecision".data]).1 = "Intro\nDecision\n".data
    ∧ removeWs (([⟨"Decision".data, "C", "Decision", 1, 0, "section"⟩] : List HChunk).map
          (fun c => c.text)).flatten
        ≠ removeWs "Intro\nDecision\n".data := ⟨rfl, rfl, by decide⟩

/-- C3 (amended): when the scan detects at least one heading, the chunk
spans cut between consecutive sorted markers (with the end-of-document
sentinel) are consecutive, non-overlapping slices whose concatenation is
exactly the accumulated full text FROM THE FIRST MARKER ONWARD — text
before the first detected heading is dropped, not covered — and the
produced chunk texts are exactly the whitespace-stripped nonempty spans,
in order. -/
theorem heading_chunks_cover_from_first_marker
    (pred : List Char → Bool) (caseRef : String) (pages : List (List Char))
    (h : (headingScan pred pages).2 ≠ []) :
    ∃ (m0 : Marker) (mrest : List Marker),
      sortMarkers (headingScan pred pages).2 = m0 :: mrest ∧
      create_heading_aware_chunks pred caseRef pages
        = .inl (chunkLoop caseRef (headingScan pred pages).1 m0
            (mrest ++ [endMarker (headingScan pred pages).1]) []) ∧
      (chunkLoop caseRef (headingScan pred pages).1 m0
          (mrest ++ [endMarker (headingScan pred pages).1]) []).map (fun c => c.text)
        = ((sliceRun (headingScan pred pages).1 m0.position
              ((mrest ++ [endMarker (headingScan pred pages).1]).map
                (fun x => x.position))).map pyStrip).filter (fun t => !t.isEmpty) ∧
      (sliceRun (headingScan pred pages).1 m0.position
          ((mrest ++ [endMarker (headingScan pred pages).1]).map
            (fun x => x.position))).flatten
        = (headingScan pred pages).1.drop m0.position := by
  have hbound : ∀ m ∈ (headingScan pred pages).2,
      m.position ≤ (headingScan pred pages).1.length := by
    intro m hm
    have := scanPages_bound pred pages 0 0 m hm
    simpa [headingScan] using this
  rcases hsort : sortMarkers (headingScan pred pages).2 with _ | ⟨m0, mrest⟩
  · exact absurd hsort (sortMarkers_ne_nil _ h)
  have hm0 : m0 ∈ (headingScan pred pages).2 := by
    rw [← sortMarkers_mem]
    rw [hsort]
    simp
  have hmr : ∀ x ∈ mrest, x ∈ (headingScan pred pages).2 := by
    intro x hx
    rw [← sortMarkers_mem]
    rw [hsort]
    simp [hx]
  have hMe : (headingScan pred pages).2.isEmpty = false := by
    simpa [List.isEmpty_iff] using h
  refine ⟨m0, mrest, rfl, ?_, ?_, ?_⟩
  · unfold create_heading_aware_chunks
    have hp : headingScan pred pages
        = ((headingScan pred pages).1, (headingScan pred pages).2) := rfl
    rw [hp]
    simp only [hMe, Bool.false_eq_true, if_false, hsort]
  · simpa using chunkLoop_texts caseRef (headingScan pred pages).1
      (mrest ++ [endMarker (headingScan pred pages).1]) m0 []
  · have hmap : (mrest ++ [endMarker (headingScan pred pages).1]).map (fun x => x.position)
        = mrest.map (fun x => x.position) ++ [(headingScan pred pages).1.length] := by
      simp [endMarker]
    rw [hmap]
    have hsorted := sortMarkers_sorted (headingScan pred pages).2
    rw [hsort] at hsorted
    have hpw1 : List.Pairwise (· ≤ ·)
        ((m0 :: mrest).map (fun x => x.position)) := List.Pairwise.map _ (fun a b hab => hab) hsorted
    have hall : ∀ p ∈ (m0 :: mrest).map (fun x => x.position),
        p ≤ (headingScan pred pages).1.length := by
      intro p hp
      obtain ⟨x, hx, hxp⟩ := List.mem_map.mp hp
      rw [← hxp]
      rcases List.mem_cons.mp hx with hx0 | hxr
      · rw [hx0]; exact hbound m0 hm0
      · exact hbound x (hmr x hxr)
    have hpw : List.Pairwise (· ≤ ·)
        (m0.position :: (mrest.map (fun x => x.position)
          ++ [(headingScan pred pages).1.length])) := by
      rw [show m0.position :: (mrest.map (fun x => x.position)
            ++ [(headingScan pred pages).1.length])
          = ((m0 :: mrest).map (fun x => x.position))
            ++ [(headingScan pred pages).1.length] by simp]
      refine List.pairwise_append.mpr ⟨hpw1, by simp, ?_⟩
      intro a ha b hb
      simp only [List.mem_singleton] at hb
      rw [hb]
      exact hall a ha
    have hlast : (mrest.map (fun x => x.position)
        ++ [(headingScan pred pages).1.length]).getLastD m0.position
          = (headingScan pred pages).1.length := List.getLastD_concat _ _ _
    obtain ⟨hflat, _⟩ := sliceRun_join (headingScan pred pages).1
      (mrest.map (fun x => x.position) ++ [(headingScan pred pages).1.length])
      m0.position (hbound m0 hm0)
      (by
        intro p hp
        rcases List.mem_append.mp hp with hp1 | hp2
        · obtain ⟨x, hx, hxp⟩ := List.mem_map.mp hp1
          rw [← hxp]
          exact hbound x (hmr x hx)
        · simp only [List.mem_singleton] at hp2
          rw [hp2])
      hpw
    rw [hflat, hlast]
    unfold slice
    rw [List.take_length]

/-- Witness for C3 (amended): the coverage theorem applied to the one-page
document "Intro\nDecision". -/
theorem heading_chunks_cover_from_first_marker_witness :
    ∃ (m0 : Marker) (mrest : List Marker),
      sortMarkers (headingScan decisionPattern ["Intro\nDecision".data]).2 = m0 :: mrest ∧
      create_heading_aware_chunks decisionPattern "C" ["Intro\nDecision".data]
        = .inl (chunkLoop "C" (headingScan decisionPattern ["Intro\nDecision".data]).1 m0
            (mrest ++ [endMarker (headingScan decisionPattern
              ["Intro\nDecision".data]).1]) []) ∧
      (chunkLoop "C" (headingScan decisionPattern ["Intro\nDecision".data]).1 m0
          (mrest ++ [endMarker (headingScan decisionPattern
            ["Intro\nDecision".data]).1]) []).map (fun c => c.text)
        = ((sliceRun (headingScan decisionPattern ["Intro\nDecision".data]).1 m0.position
              ((mrest ++ [endMarker (headingScan decisionPattern
                ["Intro\nDecision".data]).1]).map
                (fun x => x.position))).map pyStrip).filter (fun t => !t.isEmpty) ∧
      (sliceRun (headingScan decisionPattern ["Intro\nDecision".data]).1 m0.position
          ((mrest ++ [endMarker (headingScan decisionPattern
            ["Intro\nDecision".data]).1]).map
            (fun x => x.position))).flatten
        = (headingScan decisionPattern ["Intro\nDecision".data]).1.drop m0.position :=
  heading_chunks_cover_from_first_marker decisionPattern "C" ["Intro\nDecision".data]
    (by decide)

end Brandability
